import Mathlib

/-!
Verification of the ink canvas core: the quad-partitioned spatial index
(src/ink/quadtree.ts) and the replicated ink document (src/ink/ink.ts).
Coordinates are modelled as rationals; machine floats never overflow in the
ranges the code uses and the algorithms are purely order/arithmetic based.
The quadtree's recursive insert is not structurally terminating in the source
(split may refill a child), so it is embedded with an explicit fuel parameter:
result none means the recursion did not complete within the given fuel.
-/

namespace Canvas

/-- Base 2-D point (interface IPoint of src/ink/interfaces.ts). -/
structure IPoint where
  x : ℚ
  y : ℚ
deriving DecidableEq

/-- A point of an ink stroke (interface IInkPoint of src/ink/interfaces.ts). -/
structure IInkPoint where
  x : ℚ
  y : ℚ
  time : ℤ
  pressure : ℚ
deriving DecidableEq

/-- The quadtree of the source is generic over `T extends IPoint`: any element
type exposing x/y coordinates.  This class plays the role of that bound. -/
class IPointLike (T : Type) where
  px : T → ℚ
  py : T → ℚ

instance : IPointLike IPoint where
  px p := p.x
  py p := p.y

instance : IPointLike IInkPoint where
  px p := p.x
  py p := p.y

/-- Modelled from the spec: class Rectangle of rectangle.ts, which is imported
by quadtree.ts and ink.ts but missing from the sources.  Spec section 4.1:
an axis-aligned rectangle given by origin and extent. -/
structure Rectangle where
  x : ℚ
  y : ℚ
  width : ℚ
  height : ℚ
deriving DecidableEq

/-- Modelled from the spec: Rectangle.containsPoint, section 4.1: true iff
x in [x0, x0+w) and y in [y0, y0+h) (half-open on the far edges). -/
def Rectangle.containsPoint {T : Type} [IPointLike T] (r : Rectangle) (p : T) : Bool :=
  decide (r.x ≤ IPointLike.px p ∧ IPointLike.px p < r.x + r.width ∧
    r.y ≤ IPointLike.py p ∧ IPointLike.py p < r.y + r.height)

/-- Modelled from the spec: Rectangle.intersection, section 4.1: the
overlapping sub-rectangle, or none when its width or height would be ≤ 0. -/
def Rectangle.intersection (r1 r2 : Rectangle) : Option Rectangle :=
  let xl := max r1.x r2.x
  let yl := max r1.y r2.y
  let xr := min (r1.x + r1.width) (r2.x + r2.width)
  let yr := min (r1.y + r1.height) (r2.y + r2.height)
  if xr - xl ≤ 0 ∨ yr - yl ≤ 0 then none
  else some ⟨xl, yl, xr - xl, yr - yl⟩

/-- MaxPointsInRegion of quadtree.ts: capacity threshold of a leaf. -/
def MaxPointsInRegion : ℕ := 256

/-- QuadTree of quadtree.ts.  In the source a node is a leaf exactly when its
child fields are undefined, and after a split the storage fields are set to
undefined; the two shapes are the two constructors here.  `idToPoints` is a
JavaScript Map iterated in insertion order, embedded as an association list. -/
inductive QuadTree (T : Type) where
  | leaf (bounds : Rectangle) (idToPoints : List (String × List T))
      (anonymousPoints : List T) (count : ℕ)
  | node (bounds : Rectangle) (ne nw se sw : QuadTree T)
deriving DecidableEq

namespace QuadTree

/-- The bounds field, common to both shapes. -/
def bounds {T : Type} : QuadTree T → Rectangle
  | leaf b _ _ _ => b
  | node b _ _ _ _ => b

/-- Map.get/Map.set/push of QuadTree.addPoint: push p onto the list stored at
id, creating the entry (at the end, JavaScript Map insertion order) if new. -/
def addToIdMap {T : Type} (m : List (String × List T)) (id : String) (p : T) :
    List (String × List T) :=
  match m with
  | [] => [(id, [p])]
  | (k, pts) :: rest =>
    if k = id then (k, pts ++ [p]) :: rest else (k, pts) :: addToIdMap rest id p

/-- QuadTree.addPoint (quadtree.ts lines 119-134) acting on the fields of a
leaf; the registerId observer hook mutates no index state and is omitted. -/
def addPoint {T : Type} (b : Rectangle) (m : List (String × List T))
    (a : List T) (c : ℕ) (p : T) (id : Option String) : QuadTree T :=
  match id with
  | some i => leaf b (addToIdMap m i p) a (c + 1)
  | none => leaf b m (a ++ [p]) (c + 1)

/-- Bounds of the ne child created by split (quadtree.ts line 105). -/
def neRect (b : Rectangle) : Rectangle :=
  ⟨b.x + b.width / 2, b.y, b.width / 2, b.height / 2⟩

/-- Bounds of the nw child created by split (quadtree.ts line 106). -/
def nwRect (b : Rectangle) : Rectangle :=
  ⟨b.x, b.y, b.width / 2, b.height / 2⟩

/-- Bounds of the se child created by split (quadtree.ts line 107). -/
def seRect (b : Rectangle) : Rectangle :=
  ⟨b.x + b.width / 2, b.y + b.height / 2, b.width / 2, b.height / 2⟩

/-- Bounds of the sw child created by split (quadtree.ts line 108). -/
def swRect (b : Rectangle) : Rectangle :=
  ⟨b.x, b.y + b.height / 2, b.width / 2, b.height / 2⟩

/-- QuadTree.distributePoint (quadtree.ts lines 75-87): route into the first
child (checked in source order ne, nw, sw, se) whose bounds contain the point;
if none does, log and leave the tree unchanged.  The recursive child insert of
the source is the parameter ins, so that insert below can tie the knot through
its fuel.  Called on a leaf the source would dereference undefined children,
embedded as none. -/
def distributePoint {T : Type} [IPointLike T]
    (ins : QuadTree T → T → Option String → Option (QuadTree T)) :
    QuadTree T → T → Option String → Option (QuadTree T)
  | leaf _ _ _ _, _, _ => none
  | node b tne tnw tse tsw, p, id =>
    if tne.bounds.containsPoint p then
      (ins tne p id).map fun t => node b t tnw tse tsw
    else if tnw.bounds.containsPoint p then
      (ins tnw p id).map fun t => node b tne t tse tsw
    else if tsw.bounds.containsPoint p then
      (ins tsw p id).map fun t => node b tne tnw tse t
    else if tse.bounds.containsPoint p then
      (ins tse p id).map fun t => node b tne tnw t tsw
    else some (node b tne tnw tse tsw)

/-- QuadTree.distributePoints (quadtree.ts lines 89-93). -/
def distributePoints {T : Type} [IPointLike T]
    (ins : QuadTree T → T → Option String → Option (QuadTree T)) :
    QuadTree T → List T → Option String → Option (QuadTree T)
  | t, [], _ => some t
  | t, p :: rest, id =>
    match distributePoint ins t p id with
    | none => none
    | some t2 => distributePoints ins t2 rest id

/-- The idToPoints.forEach loop of QuadTree.split (quadtree.ts line 110). -/
def distributeIdLists {T : Type} [IPointLike T]
    (ins : QuadTree T → T → Option String → Option (QuadTree T)) :
    QuadTree T → List (String × List T) → Option (QuadTree T)
  | t, [] => some t
  | t, (k, pts) :: rest =>
    match distributePoints ins t pts (some k) with
    | none => none
    | some t2 => distributeIdLists ins t2 rest

/-- QuadTree.split (quadtree.ts lines 102-117) acting on the fields of the
full leaf: spawn four half-size children, redistribute the anonymous points and
then every id's list, clearing the parent storage (the node constructor holds
none).  The animations observer hook mutates no index state and is omitted. -/
def split {T : Type} [IPointLike T]
    (ins : QuadTree T → T → Option String → Option (QuadTree T))
    (b : Rectangle) (m : List (String × List T)) (a : List T) : Option (QuadTree T) :=
  let t0 : QuadTree T := node b (leaf (neRect b) [] [] 0) (leaf (nwRect b) [] [] 0)
    (leaf (seRect b) [] [] 0) (leaf (swRect b) [] [] 0)
  match distributePoints ins t0 a none with
  | none => none
  | some t2 => distributeIdLists ins t2 m

/-- QuadTree.insert (quadtree.ts lines 136-145), with fuel: the source
recursion (insert -> split -> distribute -> insert) has no structural bound,
so each nested insert call runs with one unit of fuel less; none means the
recursion did not complete within the given fuel. -/
def insertF {T : Type} [IPointLike T] :
    ℕ → QuadTree T → T → Option String → Option (QuadTree T)
  | 0, _, _, _ => none
  | Nat.succ n, leaf b m a c, p, id =>
    if c < MaxPointsInRegion then some (addPoint b m a c p id)
    else
      match split (fun t2 p2 id2 => insertF n t2 p2 id2) b m a with
      | none => none
      | some t2 => distributePoint (fun t3 p3 id3 => insertF n t3 p3 id3) t2 p id
  | Nat.succ n, node b tne tnw tse tsw, p, id =>
    distributePoint (fun t3 p3 id3 => insertF n t3 p3 id3) (node b tne tnw tse tsw) p id

/-- The inner for-loops of QuadTree.search (quadtree.ts lines 55-61 and 63-69):
scan one point list, calling the visitor on each point the clipped box
contains, and stop scanning this list when the visitor returns true (break).
The visitor threads a state S so that claims can observe the calls made. -/
def scanPoints {T S : Type} [IPointLike T] (isect : Rectangle)
    (f : S → T → Option String → S × Bool) (id : Option String) :
    S → List T → S
  | s, [] => s
  | s, p :: rest =>
    if isect.containsPoint p then
      match f s p id with
      | (s2, true) => s2
      | (s2, false) => scanPoints isect f id s2 rest
    else scanPoints isect f id s rest

/-- The for-loop over idToPoints of QuadTree.search (quadtree.ts lines 62-70):
each id's list is scanned with its own break; a break in one list does not
stop the following lists. -/
def scanIdLists {T S : Type} [IPointLike T] (isect : Rectangle)
    (f : S → T → Option String → S × Bool) :
    S → List (String × List T) → S
  | s, [] => s
  | s, (k, pts) :: rest => scanIdLists isect f (scanPoints isect f (some k) s pts) rest

/-- QuadTree.search (quadtree.ts lines 46-73): clip the box against this
node's bounds; recurse into all four children of an internal node with the
clipped box, or scan a leaf's anonymous list and then every id list. -/
def search {T S : Type} [IPointLike T] (f : S → T → Option String → S × Bool) :
    QuadTree T → Rectangle → S → S
  | leaf b m a _, box, s =>
    match b.intersection box with
    | none => s
    | some isect => scanIdLists isect f (scanPoints isect f none s a) m
  | node b tne tnw tse tsw, box, s =>
    match b.intersection box with
    | none => s
    | some isect =>
      search f tsw isect (search f tse isect (search f tnw isect (search f tne isect s)))

/-- QuadTree.gather_intersect (quadtree.ts lines 32-44): push the clipped
rectangle of each intersecting leaf; internal nodes only recurse. -/
def gather_intersect {T : Type} : QuadTree T → Rectangle → List Rectangle → List Rectangle
  | leaf b _ _ _, box, rects =>
    match b.intersection box with
    | none => rects
    | some isect => rects ++ [isect]
  | node b tne tnw tse tsw, box, rects =>
    match b.intersection box with
    | none => rects
    | some isect =>
      gather_intersect tsw isect (gather_intersect tse isect
        (gather_intersect tnw isect (gather_intersect tne isect rects)))

/-- All (point, owning id) pairs stored in the index, in traversal order:
per leaf the anonymous points (with no id) then each id list. -/
def storedPairs {T : Type} : QuadTree T → List (T × Option String)
  | leaf _ m a _ =>
    a.map (fun p => (p, none)) ++ m.flatMap fun kv => kv.2.map fun p => (p, some kv.1)
  | node _ tne tnw tse tsw =>
    storedPairs tne ++ storedPairs tnw ++ storedPairs tse ++ storedPairs tsw

/-- Structural well-formedness: every internal node's children carry exactly
the four half-size rectangles that split creates from the node's bounds. -/
def wf {T : Type} : QuadTree T → Bool
  | leaf _ _ _ _ => true
  | node b tne tnw tse tsw =>
    decide (tne.bounds = neRect b) && decide (tnw.bounds = nwRect b) &&
    decide (tse.bounds = seRect b) && decide (tsw.bounds = swRect b) &&
    wf tne && wf tnw && wf tse && wf tsw

/-- Containment invariant: every stored point lies inside the bounds of the
leaf storing it. -/
def inBounds {T : Type} [IPointLike T] : QuadTree T → Bool
  | leaf b m a _ =>
    a.all (fun p => b.containsPoint p) &&
    m.all fun kv => kv.2.all fun p => b.containsPoint p
  | node _ tne tnw tse tsw => inBounds tne && inBounds tnw && inBounds tse && inBounds tsw

end QuadTree

/-- A freshly constructed index (new QuadTree(bounds)): an empty leaf. -/
def freshQT (T : Type) (b : Rectangle) : QuadTree T :=
  QuadTree.leaf b [] [] 0

/-- A sequence of insert calls, each run with the same fuel; none as soon as
one insert fails to complete. -/
def insertSeqF {T : Type} [IPointLike T] (fuel : ℕ) :
    QuadTree T → List (T × Option String) → Option (QuadTree T)
  | t, [] => some t
  | t, (p, id) :: rest =>
    match QuadTree.insertF fuel t p id with
    | none => none
    | some t2 => insertSeqF fuel t2 rest

/-- RGBA color (interface IColor of src/ink/interfaces.ts). -/
structure IColor where
  r : ℚ
  g : ℚ
  b : ℚ
  a : ℚ
deriving DecidableEq

/-- Pen data (interface IPen of src/ink/interfaces.ts). -/
structure IPen where
  color : IColor
  thickness : ℚ
deriving DecidableEq

/-- A single ink stroke (interface IInkStroke of src/ink/interfaces.ts).
The optional inactive flag of the source is false when absent. -/
structure IInkStroke where
  id : String
  points : List IInkPoint
  loBound : IPoint
  hiBound : IPoint
  pen : IPen
  inactive : Bool
deriving DecidableEq

/-- The ink operations (type IInkOperation of src/ink/interfaces.ts). -/
inductive IInkOperation where
  | clear (time : ℤ)
  | createStroke (time : ℤ) (id : String) (pen : IPen)
  | eraseStrokes (ids : List String)
  | stylus (id : String) (point : IInkPoint)
deriving DecidableEq

/-- Modelled from the spec: class InkData of snapshot.ts, which is imported by
ink.ts but missing from the sources.  Per spec sections 3 and 4.3 it is the
stroke collection keyed by unique id plus the fixed canvas width and height. -/
structure InkData where
  width : ℚ
  height : ℚ
  strokes : List (String × IInkStroke)
deriving DecidableEq

namespace InkData

/-- Modelled from the spec: InkData.getStroke — look the stroke up by id,
absent when no stroke has this id. -/
def getStroke (d : InkData) (id : String) : Option IInkStroke :=
  (d.strokes.find? fun kv => kv.1 = id).map fun kv => kv.2

/-- Modelled from the spec: InkData.addStroke — store a new stroke under its
id. -/
def addStroke (d : InkData) (s : IInkStroke) : InkData :=
  { d with strokes := d.strokes ++ [(s.id, s)] }

/-- Modelled from the spec: InkData.clear — discard all strokes. -/
def clear (d : InkData) : InkData :=
  { d with strokes := [] }

/-- Modelled from the spec: InkData.getStrokes — the stored strokes. -/
def getStrokes (d : InkData) : List IInkStroke :=
  d.strokes.map fun kv => kv.2

/-- In-place mutation of the stroke object held under an id, as the source
does through the reference returned by getStroke. -/
def updateStroke (d : InkData) (id : String) (f : IInkStroke → IInkStroke) : InkData :=
  { d with strokes := d.strokes.map fun kv => if kv.1 = id then (kv.1, f kv.2) else kv }

end InkData

/-- Number.MAX_SAFE_INTEGER. -/
def maxSafeInteger : ℚ := 2 ^ 53 - 1

/-- Number.MIN_SAFE_INTEGER. -/
def minSafeInteger : ℚ := -(2 ^ 53 - 1)

/-- The state of an Ink document (class Ink of src/ink/ink.ts): the stroke
data, the spatial index, the operations submitted to the replication substrate
(submitLocalMessage), and the events emitted to observers.  The
strokeIdToBoxes registry feeds only the diagnostic registerId observer and is
omitted, as are the split/registration listener hooks. -/
structure Ink where
  inkData : InkData
  strokeIndex : QuadTree IInkPoint
  outbox : List IInkOperation
  events : List IInkOperation
deriving DecidableEq

namespace Ink

/-- Ink.initStrokeIndex (ink.ts lines 111-116): a fresh index over the
document's full extent. -/
def initStrokeIndex (width height : ℚ) : QuadTree IInkPoint :=
  freshQT IInkPoint ⟨0, 0, width, height⟩

/-- A newly constructed Ink document (ink.ts constructor): empty data and a
fresh index. -/
def freshInk (width height : ℚ) : Ink :=
  { inkData := ⟨width, height, []⟩
    strokeIndex := initStrokeIndex width height
    outbox := []
    events := [] }

/-- Ink.executeClearOperation (ink.ts lines 268-272). -/
def executeClearOperation (k : Ink) (op : IInkOperation) : Ink :=
  { k with
    inkData := k.inkData.clear
    strokeIndex := initStrokeIndex k.inkData.width k.inkData.height
    events := k.events ++ [op] }

/-- Ink.executeCreateStrokeOperation (ink.ts lines 279-290). -/
def executeCreateStrokeOperation (k : Ink) (time : ℤ) (id : String) (pen : IPen) :
    Ink × IInkStroke :=
  let stroke : IInkStroke :=
    { id := id
      points := []
      loBound := ⟨maxSafeInteger, maxSafeInteger⟩
      hiBound := ⟨minSafeInteger, minSafeInteger⟩
      pen := pen
      inactive := false }
  ({ k with
      inkData := k.inkData.addStroke stroke
      events := k.events ++ [IInkOperation.createStroke time id pen] }, stroke)

/-- Ink.executeEraseStrokesOperation (ink.ts lines 296-302): for each id, look
the stroke up and set inactive on it.  The source performs no existence check:
on an id with no stroke it dereferences undefined, embedded as none. -/
def eraseLoop (d : InkData) : List String → Option InkData
  | [] => some d
  | id :: rest =>
    match d.getStroke id with
    | none => none
    | some _ => eraseLoop (d.updateStroke id fun s => { s with inactive := true }) rest

/-- Ink.executeEraseStrokesOperation (ink.ts lines 296-302), including the
final eraseStrokes event emission. -/
def executeEraseStrokesOperation (k : Ink) (ids : List String) : Option Ink :=
  match eraseLoop k.inkData ids with
  | none => none
  | some d => some { k with inkData := d, events := k.events ++ [IInkOperation.eraseStrokes ids] }

/-- Ink.addPointToStroke (ink.ts lines 304-319): push the point, widen the
stroke bounds coordinatewise, and insert the point into the spatial index
tagged with the stroke id.  Fuel feeds the index insert; none means the index
insertion did not complete. -/
def addPointToStroke (fuel : ℕ) (k : Ink) (p : IInkPoint) (id : String)
    (stroke : IInkStroke) : Option (Ink × IInkStroke) :=
  let s2 : IInkStroke :=
    { stroke with
      points := stroke.points ++ [p]
      hiBound := ⟨max stroke.hiBound.x p.x, max stroke.hiBound.y p.y⟩
      loBound := ⟨min stroke.loBound.x p.x, min stroke.loBound.y p.y⟩ }
  match QuadTree.insertF fuel k.strokeIndex p (some id) with
  | none => none
  | some qt =>
    some ({ k with
        inkData := k.inkData.updateStroke id fun _ => s2
        strokeIndex := qt }, s2)

/-- Ink.executeStylusOperation (ink.ts lines 325-333): look the stroke up; if
it no longer exists the operation changes nothing and returns no stroke,
otherwise append the point and emit the stylus event. -/
def executeStylusOperation (fuel : ℕ) (k : Ink) (id : String) (p : IInkPoint) :
    Option (Ink × Option IInkStroke) :=
  match k.inkData.getStroke id with
  | none => some (k, none)
  | some stroke =>
    match addPointToStroke fuel k p id stroke with
    | none => none
    | some (k2, s2) =>
      some ({ k2 with events := k2.events ++ [IInkOperation.stylus id p] }, some s2)

/-- Ink.createStroke (ink.ts lines 120-129): submit the operation, then apply
it locally.  The uuid and timestamp are parameters of the embedding. -/
def createStroke (k : Ink) (time : ℤ) (id : String) (pen : IPen) : Ink × IInkStroke :=
  let k1 := { k with outbox := k.outbox ++ [IInkOperation.createStroke time id pen] }
  executeCreateStrokeOperation k1 time id pen

/-- Ink.eraseStrokes (ink.ts lines 134-141): submit the operation, then apply
it locally. -/
def eraseStrokes (k : Ink) (ids : List String) : Option Ink :=
  let k1 := { k with outbox := k.outbox ++ [IInkOperation.eraseStrokes ids] }
  executeEraseStrokesOperation k1 ids

/-- Ink.appendPointToStroke (ink.ts lines 146-154): submit the stylus
operation unconditionally, then apply it locally. -/
def appendPointToStroke (fuel : ℕ) (k : Ink) (p : IInkPoint) (id : String) :
    Option (Ink × Option IInkStroke) :=
  let k1 := { k with outbox := k.outbox ++ [IInkOperation.stylus id p] }
  executeStylusOperation fuel k1 id p

/-- Ink.clear (ink.ts lines 170-177): submit the operation, then apply it
locally. -/
def clear (k : Ink) (time : ℤ) : Ink :=
  let k1 := { k with outbox := k.outbox ++ [IInkOperation.clear time] }
  executeClearOperation k1 (IInkOperation.clear time)

end Ink

/-- A visitor that records every (point, id) it is called with and always
returns false (never requests an early exit). -/
def recordVisitor (T : Type) :
    List (T × Option String) → T → Option String → List (T × Option String) × Bool :=
  fun s p id => (s ++ [(p, id)], false)

/-- A visitor that records every (point, id) it is called with and always
returns true (requests an early exit at every call). -/
def stopVisitor (T : Type) :
    List (T × Option String) → T → Option String → List (T × Option String) × Bool :=
  fun s p id => (s ++ [(p, id)], true)

/-- The (point, id) pairs visited by a search run with the recording,
never-stopping visitor, in visit order. -/
def searchVisited {T : Type} [IPointLike T] (t : QuadTree T) (box : Rectangle) :
    List (T × Option String) :=
  QuadTree.search (recordVisitor T) t box []

/-- The claim's predicted outcome of a search whose visitor always returns
true, stated from the spec's words: the early exit is local to each point
list, so every intersecting leaf still contributes the first in-box point of
its anonymous list and the first in-box point of each of its id lists. -/
def firstHitPerList {T : Type} [IPointLike T] : QuadTree T → Rectangle → List (T × Option String)
  | QuadTree.leaf b m a _, box =>
    match b.intersection box with
    | none => []
    | some isect =>
      ((a.find? fun p => isect.containsPoint p).map fun p => (p, none)).toList ++
        m.filterMap fun kv =>
          (kv.2.find? fun p => isect.containsPoint p).map fun p => (p, some kv.1)
  | QuadTree.node b tne tnw tse tsw, box =>
    match b.intersection box with
    | none => []
    | some isect =>
      firstHitPerList tne isect ++ firstHitPerList tnw isect ++
        firstHitPerList tse isect ++ firstHitPerList tsw isect

/-- The tight axis-aligned bounding rectangle of a nonempty point list: least
origin and exact extent over the points. -/
def boundingRect {T : Type} [IPointLike T] : List T → Rectangle
  | [] => ⟨0, 0, 0, 0⟩
  | p :: rest =>
    let lox := rest.foldl (fun v q => min v (IPointLike.px q)) (IPointLike.px p)
    let loy := rest.foldl (fun v q => min v (IPointLike.py q)) (IPointLike.py p)
    let hix := rest.foldl (fun v q => max v (IPointLike.px q)) (IPointLike.px p)
    let hiy := rest.foldl (fun v q => max v (IPointLike.py q)) (IPointLike.py p)
    ⟨lox, loy, hix - lox, hiy - loy⟩

theorem containsPoint_iff {T : Type} [IPointLike T] (r : Rectangle) (p : T) :
    r.containsPoint p = true ↔
      (r.x ≤ IPointLike.px p ∧ IPointLike.px p < r.x + r.width ∧
        r.y ≤ IPointLike.py p ∧ IPointLike.py p < r.y + r.height) := by
  simp [Rectangle.containsPoint]

theorem px_IPoint (p : IPoint) : IPointLike.px p = p.x := rfl

theorem py_IPoint (p : IPoint) : IPointLike.py p = p.y := rfl

theorem px_IInkPoint (p : IInkPoint) : IPointLike.px p = p.x := rfl

theorem py_IInkPoint (p : IInkPoint) : IPointLike.py p = p.y := rfl

theorem intersection_def (r1 r2 : Rectangle) :
    r1.intersection r2 =
      if min (r1.x + r1.width) (r2.x + r2.width) - max r1.x r2.x ≤ 0 ∨
          min (r1.y + r1.height) (r2.y + r2.height) - max r1.y r2.y ≤ 0 then none
      else some ⟨max r1.x r2.x, max r1.y r2.y,
        min (r1.x + r1.width) (r2.x + r2.width) - max r1.x r2.x,
        min (r1.y + r1.height) (r2.y + r2.height) - max r1.y r2.y⟩ := rfl

theorem intersection_eq_some {r1 r2 i : Rectangle} (h : r1.intersection r2 = some i) :
    i = ⟨max r1.x r2.x, max r1.y r2.y,
      min (r1.x + r1.width) (r2.x + r2.width) - max r1.x r2.x,
      min (r1.y + r1.height) (r2.y + r2.height) - max r1.y r2.y⟩ ∧
    0 < min (r1.x + r1.width) (r2.x + r2.width) - max r1.x r2.x ∧
    0 < min (r1.y + r1.height) (r2.y + r2.height) - max r1.y r2.y := by
  rw [intersection_def] at h
  split at h
  · exact absurd h (by simp)
  · rename_i hc
    push_neg at hc
    exact ⟨(Option.some_inj.mp h).symm, by linarith [hc.1], by linarith [hc.2]⟩

theorem intersection_some_contains {T : Type} [IPointLike T] {r1 r2 i : Rectangle}
    (h : r1.intersection r2 = some i) (p : T) :
    i.containsPoint p = true ↔ (r1.containsPoint p = true ∧ r2.containsPoint p = true) := by
  obtain ⟨hi, _, _⟩ := intersection_eq_some h
  subst hi
  simp only [containsPoint_iff]
  constructor
  · rintro ⟨h1, h2, h3, h4⟩
    rw [max_le_iff] at h1 h3
    have h2' : IPointLike.px p < min (r1.x + r1.width) (r2.x + r2.width) := by linarith
    have h4' : IPointLike.py p < min (r1.y + r1.height) (r2.y + r2.height) := by linarith
    rw [lt_min_iff] at h2' h4'
    exact ⟨⟨h1.1, h2'.1, h3.1, h4'.1⟩, ⟨h1.2, h2'.2, h3.2, h4'.2⟩⟩
  · rintro ⟨⟨a1, a2, a3, a4⟩, b1, b2, b3, b4⟩
    refine ⟨max_le a1 b1, ?_, max_le a3 b3, ?_⟩
    · have := lt_min a2 b2
      linarith
    · have := lt_min a4 b4
      linarith

theorem intersection_none {T : Type} [IPointLike T] {r1 r2 : Rectangle}
    (h : r1.intersection r2 = none) (p : T) :
    ¬(r1.containsPoint p = true ∧ r2.containsPoint p = true) := by
  rintro ⟨h1, h2⟩
  rw [containsPoint_iff] at h1 h2
  rw [intersection_def] at h
  split at h
  · rename_i hc
    rcases hc with hc | hc
    · have : max r1.x r2.x < min (r1.x + r1.width) (r2.x + r2.width) :=
        lt_of_le_of_lt (max_le h1.1 h2.1) (lt_min h1.2.1 h2.2.1)
      linarith
    · have : max r1.y r2.y < min (r1.y + r1.height) (r2.y + r2.height) :=
        lt_of_le_of_lt (max_le h1.2.2.1 h2.2.2.1) (lt_min h1.2.2.2 h2.2.2.2)
      linarith
  · exact absurd h (by simp)

theorem intersection_some_mem {r1 r2 i : Rectangle} (h : r1.intersection r2 = some i) :
    i.containsPoint (⟨i.x, i.y⟩ : IPoint) = true := by
  obtain ⟨hi, hw, hh⟩ := intersection_eq_some h
  rw [containsPoint_iff, px_IPoint, py_IPoint]
  subst hi
  dsimp only
  exact ⟨le_refl _, by linarith, le_refl _, by linarith⟩

theorem neRect_subset {T : Type} [IPointLike T] {b : Rectangle} {p : T}
    (h : (QuadTree.neRect b).containsPoint p = true) : b.containsPoint p = true := by
  rw [containsPoint_iff] at h ⊢
  unfold QuadTree.neRect at h
  dsimp only at h
  obtain ⟨h1, h2, h3, h4⟩ := h
  exact ⟨by linarith, by linarith, by linarith, by linarith⟩

theorem nwRect_subset {T : Type} [IPointLike T] {b : Rectangle} {p : T}
    (h : (QuadTree.nwRect b).containsPoint p = true) : b.containsPoint p = true := by
  rw [containsPoint_iff] at h ⊢
  unfold QuadTree.nwRect at h
  dsimp only at h
  obtain ⟨h1, h2, h3, h4⟩ := h
  exact ⟨by linarith, by linarith, by linarith, by linarith⟩

theorem seRect_subset {T : Type} [IPointLike T] {b : Rectangle} {p : T}
    (h : (QuadTree.seRect b).containsPoint p = true) : b.containsPoint p = true := by
  rw [containsPoint_iff] at h ⊢
  unfold QuadTree.seRect at h
  dsimp only at h
  obtain ⟨h1, h2, h3, h4⟩ := h
  exact ⟨by linarith, by linarith, by linarith, by linarith⟩

theorem swRect_subset {T : Type} [IPointLike T] {b : Rectangle} {p : T}
    (h : (QuadTree.swRect b).containsPoint p = true) : b.containsPoint p = true := by
  rw [containsPoint_iff] at h ⊢
  unfold QuadTree.swRect at h
  dsimp only at h
  obtain ⟨h1, h2, h3, h4⟩ := h
  exact ⟨by linarith, by linarith, by linarith, by linarith⟩

theorem child_cover {T : Type} [IPointLike T] {b : Rectangle} {p : T}
    (h : b.containsPoint p = true) :
    (QuadTree.neRect b).containsPoint p = true ∨ (QuadTree.nwRect b).containsPoint p = true ∨
      (QuadTree.seRect b).containsPoint p = true ∨
      (QuadTree.swRect b).containsPoint p = true := by
  rw [containsPoint_iff] at h
  obtain ⟨h1, h2, h3, h4⟩ := h
  unfold QuadTree.neRect QuadTree.nwRect QuadTree.seRect QuadTree.swRect
  simp only [containsPoint_iff]
  rcases lt_or_le (IPointLike.px p) (b.x + b.width / 2) with hx | hx <;>
    rcases lt_or_le (IPointLike.py p) (b.y + b.height / 2) with hy | hy
  · exact Or.inr (Or.inl ⟨by linarith, by linarith, by linarith, by linarith⟩)
  · exact Or.inr (Or.inr (Or.inr ⟨by linarith, by linarith, by linarith, by linarith⟩))
  · exact Or.inl ⟨by linarith, by linarith, by linarith, by linarith⟩
  · exact Or.inr (Or.inr (Or.inl ⟨by linarith, by linarith, by linarith, by linarith⟩))

theorem ne_nw_disjoint {T : Type} [IPointLike T] (b : Rectangle) (p : T) :
    ¬((QuadTree.neRect b).containsPoint p = true ∧
      (QuadTree.nwRect b).containsPoint p = true) := by
  rintro ⟨h1, h2⟩
  rw [containsPoint_iff] at h1 h2
  unfold QuadTree.neRect at h1
  unfold QuadTree.nwRect at h2
  dsimp only at h1 h2
  linarith [h1.1, h2.2.1]

theorem ne_se_disjoint {T : Type} [IPointLike T] (b : Rectangle) (p : T) :
    ¬((QuadTree.neRect b).containsPoint p = true ∧
      (QuadTree.seRect b).containsPoint p = true) := by
  rintro ⟨h1, h2⟩
  rw [containsPoint_iff] at h1 h2
  unfold QuadTree.neRect at h1
  unfold QuadTree.seRect at h2
  dsimp only at h1 h2
  linarith [h1.2.2.2, h2.2.2.1]

theorem ne_sw_disjoint {T : Type} [IPointLike T] (b : Rectangle) (p : T) :
    ¬((QuadTree.neRect b).containsPoint p = true ∧
      (QuadTree.swRect b).containsPoint p = true) := by
  rintro ⟨h1, h2⟩
  rw [containsPoint_iff] at h1 h2
  unfold QuadTree.neRect at h1
  unfold QuadTree.swRect at h2
  dsimp only at h1 h2
  linarith [h1.1, h2.2.1]

theorem nw_se_disjoint {T : Type} [IPointLike T] (b : Rectangle) (p : T) :
    ¬((QuadTree.nwRect b).containsPoint p = true ∧
      (QuadTree.seRect b).containsPoint p = true) := by
  rintro ⟨h1, h2⟩
  rw [containsPoint_iff] at h1 h2
  unfold QuadTree.nwRect at h1
  unfold QuadTree.seRect at h2
  dsimp only at h1 h2
  linarith [h1.2.1, h2.1]

theorem nw_sw_disjoint {T : Type} [IPointLike T] (b : Rectangle) (p : T) :
    ¬((QuadTree.nwRect b).containsPoint p = true ∧
      (QuadTree.swRect b).containsPoint p = true) := by
  rintro ⟨h1, h2⟩
  rw [containsPoint_iff] at h1 h2
  unfold QuadTree.nwRect at h1
  unfold QuadTree.swRect at h2
  dsimp only at h1 h2
  linarith [h1.2.2.2, h2.2.2.1]

theorem se_sw_disjoint {T : Type} [IPointLike T] (b : Rectangle) (p : T) :
    ¬((QuadTree.seRect b).containsPoint p = true ∧
      (QuadTree.swRect b).containsPoint p = true) := by
  rintro ⟨h1, h2⟩
  rw [containsPoint_iff] at h1 h2
  unfold QuadTree.seRect at h1
  unfold QuadTree.swRect at h2
  dsimp only at h1 h2
  linarith [h1.1, h2.2.1]

theorem rect_disjoint_of_not_shared {r1 r2 : Rectangle}
    (h : ∀ p : IPoint, ¬(r1.containsPoint p = true ∧ r2.containsPoint p = true)) :
    r1.intersection r2 = none := by
  cases hi : r1.intersection r2 with
  | none => rfl
  | some i =>
    exact absurd ((intersection_some_contains hi (⟨i.x, i.y⟩ : IPoint)).mp
      (intersection_some_mem hi)) (by intro hc; exact h _ hc)

theorem wf_node_iff {T : Type} (b : Rectangle) (tne tnw tse tsw : QuadTree T) :
    QuadTree.wf (QuadTree.node b tne tnw tse tsw) = true ↔
      (tne.bounds = QuadTree.neRect b ∧ tnw.bounds = QuadTree.nwRect b ∧
        tse.bounds = QuadTree.seRect b ∧ tsw.bounds = QuadTree.swRect b ∧
        tne.wf = true ∧ tnw.wf = true ∧ tse.wf = true ∧ tsw.wf = true) := by
  simp [QuadTree.wf, and_assoc]

theorem distributePoint_wf {T : Type} [IPointLike T]
    {ins : QuadTree T → T → Option String → Option (QuadTree T)}
    (Hins : ∀ (t : QuadTree T) (p : T) (id : Option String) (t' : QuadTree T),
      ins t p id = some t' → t.wf = true → t'.wf = true ∧ t'.bounds = t.bounds) :
    ∀ (t : QuadTree T) (p : T) (id : Option String) (t' : QuadTree T),
      QuadTree.distributePoint ins t p id = some t' → t.wf = true →
      t'.wf = true ∧ t'.bounds = t.bounds := by
  intro t p id t' h hwf
  cases t with
  | leaf b m a c => simp [QuadTree.distributePoint] at h
  | node b tne tnw tse tsw =>
    rw [QuadTree.distributePoint] at h
    rw [wf_node_iff] at hwf
    obtain ⟨hbne, hbnw, hbse, hbsw, wne, wnw, wse, wsw⟩ := hwf
    split_ifs at h with c1 c2 c3 c4
    · obtain ⟨u, hu, ht'⟩ := Option.map_eq_some'.mp h
      obtain ⟨wu, bu⟩ := Hins tne p id u hu wne
      subst ht'
      exact ⟨(wf_node_iff _ _ _ _ _).mpr ⟨bu.trans hbne, hbnw, hbse, hbsw, wu, wnw, wse, wsw⟩,
        rfl⟩
    · obtain ⟨u, hu, ht'⟩ := Option.map_eq_some'.mp h
      obtain ⟨wu, bu⟩ := Hins tnw p id u hu wnw
      subst ht'
      exact ⟨(wf_node_iff _ _ _ _ _).mpr ⟨hbne, bu.trans hbnw, hbse, hbsw, wne, wu, wse, wsw⟩,
        rfl⟩
    · obtain ⟨u, hu, ht'⟩ := Option.map_eq_some'.mp h
      obtain ⟨wu, bu⟩ := Hins tsw p id u hu wsw
      subst ht'
      exact ⟨(wf_node_iff _ _ _ _ _).mpr ⟨hbne, hbnw, hbse, bu.trans hbsw, wne, wnw, wse, wu⟩,
        rfl⟩
    · obtain ⟨u, hu, ht'⟩ := Option.map_eq_some'.mp h
      obtain ⟨wu, bu⟩ := Hins tse p id u hu wse
      subst ht'
      exact ⟨(wf_node_iff _ _ _ _ _).mpr ⟨hbne, hbnw, bu.trans hbse, hbsw, wne, wnw, wu, wsw⟩,
        rfl⟩
    · have ht' := Option.some_inj.mp h
      subst ht'
      exact ⟨(wf_node_iff _ _ _ _ _).mpr ⟨hbne, hbnw, hbse, hbsw, wne, wnw, wse, wsw⟩, rfl⟩

theorem distributePoints_wf {T : Type} [IPointLike T]
    {ins : QuadTree T → T → Option String → Option (QuadTree T)}
    (Hins : ∀ (t : QuadTree T) (p : T) (id : Option String) (t' : QuadTree T),
      ins t p id = some t' → t.wf = true → t'.wf = true ∧ t'.bounds = t.bounds) :
    ∀ (pts : List T) (t : QuadTree T) (id : Option String) (t' : QuadTree T),
      QuadTree.distributePoints ins t pts id = some t' → t.wf = true →
      t'.wf = true ∧ t'.bounds = t.bounds := by
  intro pts
  induction pts with
  | nil =>
    intro t id t' h hwf
    rw [QuadTree.distributePoints] at h
    have ht' := Option.some_inj.mp h
    subst ht'
    exact ⟨hwf, rfl⟩
  | cons p rest ihp =>
    intro t id t' h hwf
    rw [QuadTree.distributePoints] at h
    cases hd : QuadTree.distributePoint ins t p id with
    | none => rw [hd] at h; simp at h
    | some t2 =>
      rw [hd] at h
      simp only at h
      obtain ⟨w2, b2⟩ := distributePoint_wf Hins t p id t2 hd hwf
      obtain ⟨w3, b3⟩ := ihp t2 id t' h w2
      exact ⟨w3, b3.trans b2⟩

theorem distributeIdLists_wf {T : Type} [IPointLike T]
    {ins : QuadTree T → T → Option String → Option (QuadTree T)}
    (Hins : ∀ (t : QuadTree T) (p : T) (id : Option String) (t' : QuadTree T),
      ins t p id = some t' → t.wf = true → t'.wf = true ∧ t'.bounds = t.bounds) :
    ∀ (m : List (String × List T)) (t : QuadTree T) (t' : QuadTree T),
      QuadTree.distributeIdLists ins t m = some t' → t.wf = true →
      t'.wf = true ∧ t'.bounds = t.bounds := by
  intro m
  induction m with
  | nil =>
    intro t t' h hwf
    rw [QuadTree.distributeIdLists] at h
    have ht' := Option.some_inj.mp h
    subst ht'
    exact ⟨hwf, rfl⟩
  | cons kv rest ihm =>
    intro t t' h hwf
    obtain ⟨k, pts⟩ := kv
    rw [QuadTree.distributeIdLists] at h
    cases hd : QuadTree.distributePoints ins t pts (some k) with
    | none => rw [hd] at h; simp at h
    | some t2 =>
      rw [hd] at h
      simp only at h
      obtain ⟨w2, b2⟩ := distributePoints_wf Hins pts t (some k) t2 hd hwf
      obtain ⟨w3, b3⟩ := ihm t2 t' h w2
      exact ⟨w3, b3.trans b2⟩

theorem split_wf {T : Type} [IPointLike T]
    {ins : QuadTree T → T → Option String → Option (QuadTree T)}
    (Hins : ∀ (t : QuadTree T) (p : T) (id : Option String) (t' : QuadTree T),
      ins t p id = some t' → t.wf = true → t'.wf = true ∧ t'.bounds = t.bounds) :
    ∀ (b : Rectangle) (m : List (String × List T)) (a : List T) (t' : QuadTree T),
      QuadTree.split ins b m a = some t' → t'.wf = true ∧ t'.bounds = b := by
  intro b m a t' h
  simp only [QuadTree.split] at h
  have hwf0 : QuadTree.wf (QuadTree.node b (QuadTree.leaf (T := T) (QuadTree.neRect b) [] [] 0)
      (QuadTree.leaf (QuadTree.nwRect b) [] [] 0) (QuadTree.leaf (QuadTree.seRect b) [] [] 0)
      (QuadTree.leaf (QuadTree.swRect b) [] [] 0)) = true := by
    rw [wf_node_iff]
    simp [QuadTree.bounds, QuadTree.wf]
  cases hd : QuadTree.distributePoints ins (QuadTree.node b
      (QuadTree.leaf (QuadTree.neRect b) [] [] 0) (QuadTree.leaf (QuadTree.nwRect b) [] [] 0)
      (QuadTree.leaf (QuadTree.seRect b) [] [] 0)
      (QuadTree.leaf (QuadTree.swRect b) [] [] 0)) a none with
  | none => rw [hd] at h; simp at h
  | some t2 =>
    rw [hd] at h
    simp only at h
    obtain ⟨w2, b2⟩ := distributePoints_wf Hins a _ none t2 hd hwf0
    obtain ⟨w3, b3⟩ := distributeIdLists_wf Hins m t2 t' h w2
    exact ⟨w3, b3.trans b2⟩

theorem insertF_wf_all (T : Type) [IPointLike T] :
    ∀ n : ℕ, ∀ (t : QuadTree T) (p : T) (id : Option String) (t' : QuadTree T),
      QuadTree.insertF n t p id = some t' → t.wf = true →
      t'.wf = true ∧ t'.bounds = t.bounds := by
  intro n
  induction n with
  | zero => intro t p id t' h hwf; simp [QuadTree.insertF] at h
  | succ k ih =>
    intro t p id t' h hwf
    cases t with
    | leaf b m a c =>
      rw [QuadTree.insertF] at h
      split_ifs at h with hc
      · have ht' := Option.some_inj.mp h
        subst ht'
        cases id <;> simp [QuadTree.addPoint, QuadTree.wf, QuadTree.bounds]
      · cases hsp : QuadTree.split (fun t2 p2 id2 => QuadTree.insertF k t2 p2 id2) b m a with
        | none => rw [hsp] at h; simp at h
        | some t2 =>
          rw [hsp] at h
          simp only at h
          have hsplit := split_wf (fun t p id t' hx hw => ih t p id t' hx hw) b m a t2 hsp
          have hdpf := distributePoint_wf (fun t p id t' hx hw => ih t p id t' hx hw)
            t2 p id t' h hsplit.1
          exact ⟨hdpf.1, by rw [hdpf.2, hsplit.2]; rfl⟩
    | node b tne tnw tse tsw =>
      rw [QuadTree.insertF] at h
      exact distributePoint_wf (fun t p id t' hx hw => ih t p id t' hx hw) _ p id t' h hwf

theorem insertF_wf {T : Type} [IPointLike T] {n : ℕ} {t : QuadTree T} {p : T}
    {id : Option String} {t' : QuadTree T} (h : QuadTree.insertF n t p id = some t')
    (hw : t.wf = true) : t'.wf = true ∧ t'.bounds = t.bounds :=
  insertF_wf_all T n t p id t' h hw

theorem inBounds_leaf_iff {T : Type} [IPointLike T] (b : Rectangle)
    (m : List (String × List T)) (a : List T) (c : ℕ) :
    QuadTree.inBounds (QuadTree.leaf b m a c) = true ↔
      ((∀ p ∈ a, b.containsPoint p = true) ∧
        ∀ kv ∈ m, ∀ p ∈ kv.2, b.containsPoint p = true) := by
  simp [QuadTree.inBounds, List.all_eq_true]

theorem inBounds_node_iff {T : Type} [IPointLike T] (b : Rectangle)
    (tne tnw tse tsw : QuadTree T) :
    QuadTree.inBounds (QuadTree.node b tne tnw tse tsw) = true ↔
      (tne.inBounds = true ∧ tnw.inBounds = true ∧ tse.inBounds = true ∧
        tsw.inBounds = true) := by
  simp [QuadTree.inBounds, and_assoc]

/-- The (point, id) pairs contributed by the id lists of a leaf. -/
def idListPairs {T : Type} (m : List (String × List T)) : List (T × Option String) :=
  m.flatMap fun kv => kv.2.map fun p => (p, some kv.1)

theorem storedPairs_leaf {T : Type} (b : Rectangle) (m : List (String × List T))
    (a : List T) (c : ℕ) :
    QuadTree.storedPairs (QuadTree.leaf b m a c) =
      a.map (fun p => (p, none)) ++ idListPairs m := rfl

theorem addToIdMap_pairs {T : Type} (m : List (String × List T)) (i : String) (p : T) :
    (idListPairs (QuadTree.addToIdMap m i p) : Multiset (T × Option String)) =
      (idListPairs m : Multiset (T × Option String)) + {(p, some i)} := by
  induction m with
  | nil => simp [QuadTree.addToIdMap, idListPairs]
  | cons kv rest ihm =>
    obtain ⟨k, pts⟩ := kv
    by_cases hk : k = i
    · subst hk
      simp [QuadTree.addToIdMap, idListPairs, List.flatMap_cons, ← Multiset.coe_add,
        ← Multiset.cons_coe, ← Multiset.singleton_add]
      abel
    · simp only [QuadTree.addToIdMap, if_neg hk, idListPairs, List.flatMap_cons,
        ← Multiset.coe_add]
      simp only [idListPairs] at ihm
      rw [ihm]
      abel

theorem addToIdMap_mem {T : Type} {m : List (String × List T)} {i : String} {p : T}
    {P : T → Prop} (hm : ∀ kv ∈ m, ∀ q ∈ kv.2, P q) (hp : P p) :
    ∀ kv ∈ QuadTree.addToIdMap m i p, ∀ q ∈ kv.2, P q := by
  induction m with
  | nil =>
    intro kv hkv q hq
    simp [QuadTree.addToIdMap] at hkv
    subst hkv
    simp at hq
    subst hq
    exact hp
  | cons kv0 rest ihm =>
    obtain ⟨k, pts⟩ := kv0
    intro kv hkv q hq
    by_cases hk : k = i
    · subst hk
      simp only [QuadTree.addToIdMap, if_pos rfl] at hkv
      rcases List.mem_cons.mp hkv with h1 | h1
      · subst h1
        simp only at hq
        rcases List.mem_append.mp hq with h2 | h2
        · exact hm (k, pts) (List.mem_cons_self _ _) q h2
        · simp at h2
          subst h2
          exact hp
      · exact hm kv (List.mem_cons_of_mem _ h1) q hq
    · simp only [QuadTree.addToIdMap, if_neg hk] at hkv
      rcases List.mem_cons.mp hkv with h1 | h1
      · subst h1
        exact hm (k, pts) (List.mem_cons_self _ _) q hq
      · exact ihm (fun kv2 hkv2 => hm kv2 (List.mem_cons_of_mem _ hkv2)) kv h1 q hq

theorem addPoint_stored {T : Type} [IPointLike T] (b : Rectangle)
    (m : List (String × List T)) (a : List T) (c : ℕ) (p : T) (id : Option String) :
    (QuadTree.storedPairs (QuadTree.addPoint b m a c p id) : Multiset (T × Option String)) =
      (QuadTree.storedPairs (QuadTree.leaf b m a c) : Multiset (T × Option String)) +
        {(p, id)} := by
  cases id with
  | none =>
    simp [QuadTree.addPoint, storedPairs_leaf, List.map_append, ← Multiset.coe_add,
      ← Multiset.cons_coe, ← Multiset.singleton_add]
    abel
  | some i =>
    simp only [QuadTree.addPoint, storedPairs_leaf, ← Multiset.coe_add]
    rw [addToIdMap_pairs]
    abel

theorem addPoint_inBounds {T : Type} [IPointLike T] {b : Rectangle}
    {m : List (String × List T)} {a : List T} {c : ℕ} {p : T} {id : Option String}
    (hin : QuadTree.inBounds (QuadTree.leaf b m a c) = true)
    (hp : b.containsPoint p = true) :
    QuadTree.inBounds (QuadTree.addPoint b m a c p id) = true := by
  rw [inBounds_leaf_iff] at hin
  cases id with
  | none =>
    rw [QuadTree.addPoint, inBounds_leaf_iff]
    refine ⟨?_, hin.2⟩
    intro q hq
    rcases List.mem_append.mp hq with h1 | h1
    · exact hin.1 q h1
    · simp at h1
      subst h1
      exact hp
  | some i =>
    rw [QuadTree.addPoint, inBounds_leaf_iff]
    exact ⟨hin.1, addToIdMap_mem hin.2 hp⟩

theorem addPoint_bounds {T : Type} [IPointLike T] (b : Rectangle)
    (m : List (String × List T)) (a : List T) (c : ℕ) (p : T) (id : Option String) :
    (QuadTree.addPoint b m a c p id).bounds = b := by
  cases id <;> rfl

theorem stored_in_bounds {T : Type} [IPointLike T] {t : QuadTree T}
    (hwf : t.wf = true) (hin : t.inBounds = true) :
    ∀ pr ∈ QuadTree.storedPairs t, t.bounds.containsPoint pr.1 = true := by
  induction t with
  | leaf b m a c =>
    rw [inBounds_leaf_iff] at hin
    intro pr hpr
    rw [storedPairs_leaf] at hpr
    rcases List.mem_append.mp hpr with h1 | h1
    · obtain ⟨q, hq, rfl⟩ := List.mem_map.mp h1
      exact hin.1 q hq
    · obtain ⟨kv, hkv, hpr2⟩ := List.mem_flatMap.mp h1
      obtain ⟨q, hq, rfl⟩ := List.mem_map.mp hpr2
      exact hin.2 kv hkv q hq
  | node b tne tnw tse tsw ihne ihnw ihse ihsw =>
    rw [wf_node_iff] at hwf
    rw [inBounds_node_iff] at hin
    intro pr hpr
    rw [QuadTree.storedPairs] at hpr
    rcases List.mem_append.mp hpr with h1 | h1
    rcases List.mem_append.mp h1 with h2 | h2
    rcases List.mem_append.mp h2 with h3 | h3
    · have := ihne hwf.2.2.2.2.1 hin.1 pr h3
      rw [hwf.1] at this
      exact neRect_subset this
    · have := ihnw hwf.2.2.2.2.2.1 hin.2.1 pr h3
      rw [hwf.2.1] at this
      exact nwRect_subset this
    · have := ihse hwf.2.2.2.2.2.2.1 hin.2.2.1 pr h2
      rw [hwf.2.2.1] at this
      exact seRect_subset this
    · have := ihsw hwf.2.2.2.2.2.2.2 hin.2.2.2 pr h1
      rw [hwf.2.2.2.1] at this
      exact swRect_subset this

theorem distributePoint_stored {T : Type} [IPointLike T]
    {ins : QuadTree T → T → Option String → Option (QuadTree T)}
    (_HinsW : ∀ (t : QuadTree T) (p : T) (id : Option String) (t' : QuadTree T),
      ins t p id = some t' → t.wf = true → t'.wf = true ∧ t'.bounds = t.bounds)
    (HinsS : ∀ (t : QuadTree T) (p : T) (id : Option String) (t' : QuadTree T),
      ins t p id = some t' → t.wf = true → t.inBounds = true →
      t.bounds.containsPoint p = true →
      t'.inBounds = true ∧
        (QuadTree.storedPairs t' : Multiset (T × Option String)) =
          (QuadTree.storedPairs t : Multiset (T × Option String)) + {(p, id)}) :
    ∀ (t : QuadTree T) (p : T) (id : Option String) (t' : QuadTree T),
      QuadTree.distributePoint ins t p id = some t' → t.wf = true → t.inBounds = true →
      t.bounds.containsPoint p = true →
      t'.inBounds = true ∧
        (QuadTree.storedPairs t' : Multiset (T × Option String)) =
          (QuadTree.storedPairs t : Multiset (T × Option String)) + {(p, id)} := by
  intro t p id t' h hwf hin hp
  cases t with
  | leaf b m a c => simp [QuadTree.distributePoint] at h
  | node b tne tnw tse tsw =>
    rw [QuadTree.distributePoint] at h
    rw [wf_node_iff] at hwf
    obtain ⟨hbne, hbnw, hbse, hbsw, wne, wnw, wse, wsw⟩ := hwf
    rw [inBounds_node_iff] at hin
    obtain ⟨ine, inw, ise, isw⟩ := hin
    split_ifs at h with c1 c2 c3 c4
    · obtain ⟨u, hu, ht'⟩ := Option.map_eq_some'.mp h
      obtain ⟨iu, su⟩ := HinsS tne p id u hu wne ine c1
      subst ht'
      refine ⟨(inBounds_node_iff _ _ _ _ _).mpr ⟨iu, inw, ise, isw⟩, ?_⟩
      simp only [QuadTree.storedPairs, ← Multiset.coe_add]
      rw [su]
      abel
    · obtain ⟨u, hu, ht'⟩ := Option.map_eq_some'.mp h
      obtain ⟨iu, su⟩ := HinsS tnw p id u hu wnw inw c2
      subst ht'
      refine ⟨(inBounds_node_iff _ _ _ _ _).mpr ⟨ine, iu, ise, isw⟩, ?_⟩
      simp only [QuadTree.storedPairs, ← Multiset.coe_add]
      rw [su]
      abel
    · obtain ⟨u, hu, ht'⟩ := Option.map_eq_some'.mp h
      obtain ⟨iu, su⟩ := HinsS tsw p id u hu wsw isw c3
      subst ht'
      refine ⟨(inBounds_node_iff _ _ _ _ _).mpr ⟨ine, inw, ise, iu⟩, ?_⟩
      simp only [QuadTree.storedPairs, ← Multiset.coe_add]
      rw [su]
      abel
    · obtain ⟨u, hu, ht'⟩ := Option.map_eq_some'.mp h
      obtain ⟨iu, su⟩ := HinsS tse p id u hu wse ise c4
      subst ht'
      refine ⟨(inBounds_node_iff _ _ _ _ _).mpr ⟨ine, inw, iu, isw⟩, ?_⟩
      simp only [QuadTree.storedPairs, ← Multiset.coe_add]
      rw [su]
      abel
    · exfalso
      have hcov := child_cover (b := b) (p := p) hp
      rw [← hbne] at hcov
      rw [← hbnw] at hcov
      rw [← hbse] at hcov
      rw [← hbsw] at hcov
      rcases hcov with hc | hc | hc | hc
      · exact c1 hc
      · exact c2 hc
      · exact c4 hc
      · exact c3 hc

theorem distributePoints_stored {T : Type} [IPointLike T]
    {ins : QuadTree T → T → Option String → Option (QuadTree T)}
    (HinsW : ∀ (t : QuadTree T) (p : T) (id : Option String) (t' : QuadTree T),
      ins t p id = some t' → t.wf = true → t'.wf = true ∧ t'.bounds = t.bounds)
    (HinsS : ∀ (t : QuadTree T) (p : T) (id : Option String) (t' : QuadTree T),
      ins t p id = some t' → t.wf = true → t.inBounds = true →
      t.bounds.containsPoint p = true →
      t'.inBounds = true ∧
        (QuadTree.storedPairs t' : Multiset (T × Option String)) =
          (QuadTree.storedPairs t : Multiset (T × Option String)) + {(p, id)}) :
    ∀ (pts : List T) (t : QuadTree T) (id : Option String) (t' : QuadTree T),
      QuadTree.distributePoints ins t pts id = some t' → t.wf = true → t.inBounds = true →
      (∀ p ∈ pts, t.bounds.containsPoint p = true) →
      t'.inBounds = true ∧
        (QuadTree.storedPairs t' : Multiset (T × Option String)) =
          (QuadTree.storedPairs t : Multiset (T × Option String)) +
            ↑(pts.map fun p => (p, id)) := by
  intro pts
  induction pts with
  | nil =>
    intro t id t' h hwf hin hcont
    rw [QuadTree.distributePoints] at h
    have ht' := Option.some_inj.mp h
    subst ht'
    simp [hin]
  | cons p rest ihp =>
    intro t id t' h hwf hin hcont
    rw [QuadTree.distributePoints] at h
    cases hd : QuadTree.distributePoint ins t p id with
    | none => rw [hd] at h; simp at h
    | some t2 =>
      rw [hd] at h
      simp only at h
      obtain ⟨i2, s2⟩ := distributePoint_stored HinsW HinsS t p id t2 hd hwf hin
        (hcont p (List.mem_cons_self _ _))
      have hw2 := distributePoint_wf HinsW t p id t2 hd hwf
      obtain ⟨i3, s3⟩ := ihp t2 id t' h hw2.1 i2
        (by intro q hq; rw [hw2.2]; exact hcont q (List.mem_cons_of_mem _ hq))
      refine ⟨i3, ?_⟩
      rw [s3, s2]
      simp only [List.map_cons, ← Multiset.cons_coe, ← Multiset.singleton_add]
      abel

theorem distributeIdLists_stored {T : Type} [IPointLike T]
    {ins : QuadTree T → T → Option String → Option (QuadTree T)}
    (HinsW : ∀ (t : QuadTree T) (p : T) (id : Option String) (t' : QuadTree T),
      ins t p id = some t' → t.wf = true → t'.wf = true ∧ t'.bounds = t.bounds)
    (HinsS : ∀ (t : QuadTree T) (p : T) (id : Option String) (t' : QuadTree T),
      ins t p id = some t' → t.wf = true → t.inBounds = true →
      t.bounds.containsPoint p = true →
      t'.inBounds = true ∧
        (QuadTree.storedPairs t' : Multiset (T × Option String)) =
          (QuadTree.storedPairs t : Multiset (T × Option String)) + {(p, id)}) :
    ∀ (m : List (String × List T)) (t : QuadTree T) (t' : QuadTree T),
      QuadTree.distributeIdLists ins t m = some t' → t.wf = true → t.inBounds = true →
      (∀ kv ∈ m, ∀ p ∈ kv.2, t.bounds.containsPoint p = true) →
      t'.inBounds = true ∧
        (QuadTree.storedPairs t' : Multiset (T × Option String)) =
          (QuadTree.storedPairs t : Multiset (T × Option String)) + ↑(idListPairs m) := by
  intro m
  induction m with
  | nil =>
    intro t t' h hwf hin hcont
    rw [QuadTree.distributeIdLists] at h
    have ht' := Option.some_inj.mp h
    subst ht'
    simp [hin, idListPairs]
  | cons kv rest ihm =>
    intro t t' h hwf hin hcont
    obtain ⟨k, pts⟩ := kv
    rw [QuadTree.distributeIdLists] at h
    cases hd : QuadTree.distributePoints ins t pts (some k) with
    | none => rw [hd] at h; simp at h
    | some t2 =>
      rw [hd] at h
      simp only at h
      obtain ⟨i2, s2⟩ := distributePoints_stored HinsW HinsS pts t (some k) t2 hd hwf hin
        (fun q hq => hcont (k, pts) (List.mem_cons_self _ _) q hq)
      have hw2 := distributePoints_wf HinsW pts t (some k) t2 hd hwf
      obtain ⟨i3, s3⟩ := ihm t2 t' h hw2.1 i2
        (by
          intro kv2 hkv2 q hq
          rw [hw2.2]
          exact hcont kv2 (List.mem_cons_of_mem _ hkv2) q hq)
      refine ⟨i3, ?_⟩
      rw [s3, s2]
      simp only [idListPairs, List.flatMap_cons, ← Multiset.coe_add]
      abel

theorem split_stored {T : Type} [IPointLike T]
    {ins : QuadTree T → T → Option String → Option (QuadTree T)}
    (HinsW : ∀ (t : QuadTree T) (p : T) (id : Option String) (t' : QuadTree T),
      ins t p id = some t' → t.wf = true → t'.wf = true ∧ t'.bounds = t.bounds)
    (HinsS : ∀ (t : QuadTree T) (p : T) (id : Option String) (t' : QuadTree T),
      ins t p id = some t' → t.wf = true → t.inBounds = true →
      t.bounds.containsPoint p = true →
      t'.inBounds = true ∧
        (QuadTree.storedPairs t' : Multiset (T × Option String)) =
          (QuadTree.storedPairs t : Multiset (T × Option String)) + {(p, id)}) :
    ∀ (b : Rectangle) (m : List (String × List T)) (a : List T) (t' : QuadTree T),
      QuadTree.split ins b m a = some t' →
      (∀ p ∈ a, b.containsPoint p = true) →
      (∀ kv ∈ m, ∀ p ∈ kv.2, b.containsPoint p = true) →
      t'.inBounds = true ∧
        (QuadTree.storedPairs t' : Multiset (T × Option String)) =
          ↑(a.map fun p => (p, (none : Option String))) + ↑(idListPairs m) := by
  intro b m a t' h hconta hcontm
  simp only [QuadTree.split] at h
  have hwf0 : QuadTree.wf (QuadTree.node b
      (QuadTree.leaf (T := T) (QuadTree.neRect b) [] [] 0)
      (QuadTree.leaf (QuadTree.nwRect b) [] [] 0)
      (QuadTree.leaf (QuadTree.seRect b) [] [] 0)
      (QuadTree.leaf (QuadTree.swRect b) [] [] 0)) = true := by
    rw [wf_node_iff]
    simp [QuadTree.bounds, QuadTree.wf]
  have hin0 : QuadTree.inBounds (QuadTree.node b
      (QuadTree.leaf (T := T) (QuadTree.neRect b) [] [] 0)
      (QuadTree.leaf (QuadTree.nwRect b) [] [] 0)
      (QuadTree.leaf (QuadTree.seRect b) [] [] 0)
      (QuadTree.leaf (QuadTree.swRect b) [] [] 0)) = true := by
    rw [inBounds_node_iff]
    simp [inBounds_leaf_iff]
  cases hd : QuadTree.distributePoints ins (QuadTree.node b
      (QuadTree.leaf (QuadTree.neRect b) [] [] 0)
      (QuadTree.leaf (QuadTree.nwRect b) [] [] 0)
      (QuadTree.leaf (QuadTree.seRect b) [] [] 0)
      (QuadTree.leaf (QuadTree.swRect b) [] [] 0)) a none with
  | none => rw [hd] at h; simp at h
  | some t2 =>
    rw [hd] at h
    simp only at h
    obtain ⟨i2, s2⟩ := distributePoints_stored HinsW HinsS a _ none t2 hd hwf0 hin0 hconta
    have hw2 := distributePoints_wf HinsW a _ none t2 hd hwf0
    obtain ⟨i3, s3⟩ := distributeIdLists_stored HinsW HinsS m t2 t' h hw2.1 i2
      (by
        intro kv2 hkv2 q hq
        rw [hw2.2]
        exact hcontm kv2 hkv2 q hq)
    refine ⟨i3, ?_⟩
    rw [s3, s2]
    simp [QuadTree.storedPairs, idListPairs]

theorem insertF_stored_all (T : Type) [IPointLike T] :
    ∀ n : ℕ, ∀ (t : QuadTree T) (p : T) (id : Option String) (t' : QuadTree T),
      QuadTree.insertF n t p id = some t' → t.wf = true → t.inBounds = true →
      t.bounds.containsPoint p = true →
      t'.inBounds = true ∧
        (QuadTree.storedPairs t' : Multiset (T × Option String)) =
          (QuadTree.storedPairs t : Multiset (T × Option String)) + {(p, id)} := by
  intro n
  induction n with
  | zero => intro t p id t' h hwf hin hp; simp [QuadTree.insertF] at h
  | succ k ih =>
    intro t p id t' h hwf hin hp
    cases t with
    | leaf b m a c =>
      rw [QuadTree.insertF] at h
      split_ifs at h with hc
      · have ht' := Option.some_inj.mp h
        subst ht'
        exact ⟨addPoint_inBounds hin hp, addPoint_stored b m a c p id⟩
      · cases hsp : QuadTree.split (fun t2 p2 id2 => QuadTree.insertF k t2 p2 id2) b m a with
        | none => rw [hsp] at h; simp at h
        | some t2 =>
          rw [hsp] at h
          simp only at h
          rw [inBounds_leaf_iff] at hin
          have hiw : ∀ (t : QuadTree T) (p : T) (id : Option String) (t' : QuadTree T),
              QuadTree.insertF k t p id = some t' → t.wf = true →
              t'.wf = true ∧ t'.bounds = t.bounds :=
            fun t p id t' hx hw => insertF_wf_all T k t p id t' hx hw
          have hsb := split_wf hiw b m a t2 hsp
          have hsp2 := split_stored hiw ih b m a t2 hsp hin.1 hin.2
          have hdpf := distributePoint_stored hiw ih t2 p id t' h hsb.1 hsp2.1
            (by rw [hsb.2]; exact hp)
          refine ⟨hdpf.1, ?_⟩
          rw [hdpf.2, hsp2.2, storedPairs_leaf, ← Multiset.coe_add]
    | node b tne tnw tse tsw =>
      rw [QuadTree.insertF] at h
      have hiw : ∀ (t : QuadTree T) (p : T) (id : Option String) (t' : QuadTree T),
          QuadTree.insertF k t p id = some t' → t.wf = true →
          t'.wf = true ∧ t'.bounds = t.bounds :=
        fun t p id t' hx hw => insertF_wf_all T k t p id t' hx hw
      exact distributePoint_stored hiw ih _ p id t' h hwf hin hp

theorem bool_eq_of_iff {a b : Bool} (h : a = true ↔ b = true) : a = b := by
  cases a <;> cases b <;> simp_all

theorem insertSeqF_wf {T : Type} [IPointLike T] {fuel : ℕ} :
    ∀ {ps : List (T × Option String)} {t t' : QuadTree T},
      insertSeqF fuel t ps = some t' → t.wf = true →
      t'.wf = true ∧ t'.bounds = t.bounds := by
  intro ps
  induction ps with
  | nil =>
    intro t t' h hwf
    rw [insertSeqF] at h
    have ht' := Option.some_inj.mp h
    subst ht'
    exact ⟨hwf, rfl⟩
  | cons pr rest ihp =>
    intro t t' h hwf
    obtain ⟨p, id⟩ := pr
    rw [insertSeqF] at h
    cases hd : QuadTree.insertF fuel t p id with
    | none => rw [hd] at h; simp at h
    | some t2 =>
      rw [hd] at h
      simp only at h
      obtain ⟨w2, b2⟩ := insertF_wf hd hwf
      obtain ⟨w3, b3⟩ := ihp h w2
      exact ⟨w3, b3.trans b2⟩

theorem insertSeqF_stored {T : Type} [IPointLike T] {fuel : ℕ} :
    ∀ {ps : List (T × Option String)} {t t' : QuadTree T},
      insertSeqF fuel t ps = some t' → t.wf = true → t.inBounds = true →
      (∀ pr ∈ ps, t.bounds.containsPoint pr.1 = true) →
      t'.inBounds = true ∧
        (QuadTree.storedPairs t' : Multiset (T × Option String)) =
          (QuadTree.storedPairs t : Multiset (T × Option String)) + ↑ps := by
  intro ps
  induction ps with
  | nil =>
    intro t t' h hwf hin hcont
    rw [insertSeqF] at h
    have ht' := Option.some_inj.mp h
    subst ht'
    simp [hin]
  | cons pr rest ihp =>
    intro t t' h hwf hin hcont
    obtain ⟨p, id⟩ := pr
    rw [insertSeqF] at h
    cases hd : QuadTree.insertF fuel t p id with
    | none => rw [hd] at h; simp at h
    | some t2 =>
      rw [hd] at h
      simp only at h
      obtain ⟨i2, s2⟩ := insertF_stored_all T fuel t p id t2 hd hwf hin
        (hcont (p, id) (List.mem_cons_self _ _))
      obtain ⟨w2, b2⟩ := insertF_wf hd hwf
      obtain ⟨i3, s3⟩ := ihp h w2 i2
        (by
          intro q hq
          rw [b2]
          exact hcont q (List.mem_cons_of_mem _ hq))
      refine ⟨i3, ?_⟩
      rw [s3, s2]
      simp only [← Multiset.cons_coe, ← Multiset.singleton_add]
      abel

theorem scanPoints_record {T : Type} [IPointLike T] (isect : Rectangle) (id : Option String) :
    ∀ (pts : List T) (s : List (T × Option String)),
      QuadTree.scanPoints isect (recordVisitor T) id s pts =
        s ++ (pts.filter fun p => isect.containsPoint p).map fun p => (p, id) := by
  intro pts
  induction pts with
  | nil => intro s; simp [QuadTree.scanPoints]
  | cons p rest ihp =>
    intro s
    rw [QuadTree.scanPoints]
    by_cases hc : isect.containsPoint p = true
    · rw [if_pos hc]
      simp only [recordVisitor]
      rw [ihp]
      simp [List.filter_cons, hc]
    · rw [if_neg hc]
      rw [ihp]
      simp only [List.filter_cons]
      rw [if_neg (by simpa using hc)]

theorem scanIdLists_record {T : Type} [IPointLike T] (isect : Rectangle) :
    ∀ (m : List (String × List T)) (s : List (T × Option String)),
      QuadTree.scanIdLists isect (recordVisitor T) s m =
        s ++ m.flatMap fun kv =>
          ((kv.2.filter fun p => isect.containsPoint p).map fun p => (p, some kv.1)) := by
  intro m
  induction m with
  | nil => intro s; simp [QuadTree.scanIdLists]
  | cons kv rest ihm =>
    intro s
    obtain ⟨k, pts⟩ := kv
    rw [QuadTree.scanIdLists, scanPoints_record, ihm]
    simp [List.append_assoc]

theorem filter_pairs_map {T : Type} [IPointLike T] (box : Rectangle) (id : Option String)
    (l : List T) (q : T → Bool) (hq : ∀ p ∈ l, q p = box.containsPoint p) :
    ((l.filter q).map fun p => (p, id)) =
      (l.map fun p => (p, id)).filter fun pr => box.containsPoint pr.1 := by
  induction l with
  | nil => simp
  | cons p rest ihl =>
    have hq0 := hq p (List.mem_cons_self _ _)
    have ihl2 := ihl fun r hr => hq r (List.mem_cons_of_mem _ hr)
    by_cases hc : box.containsPoint p = true
    · simp only [List.filter_cons, List.map_cons, hq0, hc, if_pos trivial]
      simp only [List.map_cons, ihl2]
    · simp only [List.filter_cons, List.map_cons, hq0]
      rw [if_neg (by simpa using hc), if_neg (by simpa using hc)]
      exact ihl2

theorem idlists_filter {T : Type} [IPointLike T] {b box isect : Rectangle}
    (hi : b.intersection box = some isect) (m : List (String × List T))
    (hm : ∀ kv ∈ m, ∀ p ∈ kv.2, b.containsPoint p = true) :
    (m.flatMap fun kv =>
        ((kv.2.filter fun p => isect.containsPoint p).map fun p => (p, some kv.1))) =
      (idListPairs m).filter fun pr => box.containsPoint pr.1 := by
  induction m with
  | nil => simp [idListPairs]
  | cons kv rest ihm =>
    obtain ⟨k, pts⟩ := kv
    simp only [idListPairs, List.flatMap_cons, List.filter_append]
    rw [filter_pairs_map box (some k) pts _
      (by
        intro p hp
        apply bool_eq_of_iff
        rw [intersection_some_contains hi p]
        have hb := hm (k, pts) (List.mem_cons_self _ _) p hp
        exact ⟨fun hx => hx.2, fun hx => ⟨hb, hx⟩⟩)]
    rw [ihm fun kv2 hkv2 => hm kv2 (List.mem_cons_of_mem _ hkv2)]
    rfl

theorem search_record {T : Type} [IPointLike T] :
    ∀ (t : QuadTree T), t.wf = true → t.inBounds = true →
      ∀ (box : Rectangle) (s : List (T × Option String)),
        QuadTree.search (recordVisitor T) t box s =
          s ++ (QuadTree.storedPairs t).filter fun pr => box.containsPoint pr.1 := by
  intro t
  induction t with
  | leaf b m a c =>
    intro hwf hin box s
    rw [QuadTree.search]
    have hstored := stored_in_bounds hwf hin
    cases hi : b.intersection box with
    | none =>
      simp only
      have hnil : ((QuadTree.storedPairs (QuadTree.leaf b m a c)).filter
          fun pr => box.containsPoint pr.1) = [] := by
        rw [List.filter_eq_nil_iff]
        intro pr hpr
        intro hbox
        exact intersection_none hi pr.1 ⟨hstored pr hpr, hbox⟩
      rw [hnil, List.append_nil]
    | some isect =>
      simp only
      rw [scanPoints_record, scanIdLists_record]
      rw [inBounds_leaf_iff] at hin
      have hiso : ∀ p : T, b.containsPoint p = true →
          isect.containsPoint p = box.containsPoint p := by
        intro p hb
        apply bool_eq_of_iff
        rw [intersection_some_contains hi p]
        constructor
        · exact fun hx => hx.2
        · exact fun hx => ⟨hb, hx⟩
      rw [storedPairs_leaf, List.filter_append, List.append_assoc]
      congr 1
      have hanon : ((a.filter fun p => isect.containsPoint p).map
          fun p => (p, (none : Option String))) =
          (a.map fun p => (p, (none : Option String))).filter
            fun pr => box.containsPoint pr.1 :=
        filter_pairs_map box none a _ fun p hp => hiso p (hin.1 p hp)
      rw [hanon]
      congr 1
      exact idlists_filter hi m hin.2
  | node b tne tnw tse tsw ihne ihnw ihse ihsw =>
    intro hwf hin box s
    have hstored := stored_in_bounds hwf hin
    have hwf2 := hwf
    rw [wf_node_iff] at hwf2
    obtain ⟨hbne, hbnw, hbse, hbsw, wne, wnw, wse, wsw⟩ := hwf2
    rw [inBounds_node_iff] at hin
    obtain ⟨ine, inw, ise, isw⟩ := hin
    rw [QuadTree.search]
    cases hi : b.intersection box with
    | none =>
      simp only
      have hnil : ((QuadTree.storedPairs (QuadTree.node b tne tnw tse tsw)).filter
          fun pr => box.containsPoint pr.1) = [] := by
        rw [List.filter_eq_nil_iff]
        intro pr hpr
        intro hbox
        exact intersection_none hi pr.1 ⟨hstored pr hpr, hbox⟩
      rw [hnil, List.append_nil]
    | some isect =>
      simp only
      have hconv : ∀ (c : QuadTree T), c.wf = true → c.inBounds = true →
          (∀ q : T, c.bounds.containsPoint q = true → b.containsPoint q = true) →
          ((QuadTree.storedPairs c).filter fun pr => isect.containsPoint pr.1) =
            (QuadTree.storedPairs c).filter fun pr => box.containsPoint pr.1 := by
        intro c cwf cin csub
        apply List.filter_congr
        intro pr hpr
        apply bool_eq_of_iff
        rw [intersection_some_contains hi pr.1]
        have hb := csub pr.1 (stored_in_bounds cwf cin pr hpr)
        constructor
        · exact fun hx => hx.2
        · exact fun hx => ⟨hb, hx⟩
      rw [ihne wne ine isect s, ihnw wnw inw isect _, ihse wse ise isect _,
        ihsw wsw isw isect _]
      rw [hconv tne wne ine (by rw [hbne]; exact fun q => neRect_subset),
        hconv tnw wnw inw (by rw [hbnw]; exact fun q => nwRect_subset),
        hconv tse wse ise (by rw [hbse]; exact fun q => seRect_subset),
        hconv tsw wsw isw (by rw [hbsw]; exact fun q => swRect_subset)]
      rw [QuadTree.storedPairs]
      simp [List.filter_append, List.append_assoc]

theorem scanPoints_stop {T : Type} [IPointLike T] (isect : Rectangle) (id : Option String) :
    ∀ (pts : List T) (s : List (T × Option String)),
      QuadTree.scanPoints isect (stopVisitor T) id s pts =
        s ++ ((pts.find? fun p => isect.containsPoint p).map fun p => (p, id)).toList := by
  intro pts
  induction pts with
  | nil => intro s; simp [QuadTree.scanPoints]
  | cons p rest ihp =>
    intro s
    rw [QuadTree.scanPoints]
    by_cases hc : isect.containsPoint p = true
    · rw [if_pos hc]
      simp only [stopVisitor]
      rw [List.find?_cons_of_pos _ hc]
      simp
    · rw [if_neg hc]
      rw [ihp]
      rw [List.find?_cons_of_neg _ (by simpa using hc)]

theorem scanIdLists_stop {T : Type} [IPointLike T] (isect : Rectangle) :
    ∀ (m : List (String × List T)) (s : List (T × Option String)),
      QuadTree.scanIdLists isect (stopVisitor T) s m =
        s ++ m.filterMap fun kv =>
          (kv.2.find? fun p => isect.containsPoint p).map fun p => (p, some kv.1) := by
  intro m
  induction m with
  | nil => intro s; simp [QuadTree.scanIdLists]
  | cons kv rest ihm =>
    intro s
    obtain ⟨k, pts⟩ := kv
    rw [QuadTree.scanIdLists, scanPoints_stop, ihm]
    rw [List.filterMap_cons]
    cases hf : pts.find? fun p => isect.containsPoint p with
    | none => simp
    | some p => simp

theorem search_stop_characterization {T : Type} [IPointLike T] :
    ∀ (t : QuadTree T) (box : Rectangle) (s : List (T × Option String)),
      QuadTree.search (stopVisitor T) t box s = s ++ firstHitPerList t box := by
  intro t
  induction t with
  | leaf b m a c =>
    intro box s
    rw [QuadTree.search, firstHitPerList]
    cases hi : b.intersection box with
    | none => simp
    | some isect =>
      simp only
      rw [scanPoints_stop, scanIdLists_stop, List.append_assoc]
  | node b tne tnw tse tsw ihne ihnw ihse ihsw =>
    intro box s
    rw [QuadTree.search, firstHitPerList]
    cases hi : b.intersection box with
    | none => simp
    | some isect =>
      simp only
      rw [ihne, ihnw, ihse, ihsw]
      simp [List.append_assoc]

theorem ne_not_contains_origin (w h : ℚ) (hw : 0 < w) :
    (QuadTree.neRect ⟨0, 0, w, h⟩).containsPoint (⟨0, 0⟩ : IPoint) = false := by
  rw [Bool.eq_false_iff]
  intro hc
  rw [containsPoint_iff] at hc
  unfold QuadTree.neRect at hc
  dsimp only at hc
  rw [px_IPoint] at hc
  dsimp only at hc
  linarith [hc.1]

theorem nw_contains_origin (w h : ℚ) (hw : 0 < w) (hh : 0 < h) :
    (QuadTree.nwRect ⟨0, 0, w, h⟩).containsPoint (⟨0, 0⟩ : IPoint) = true := by
  rw [containsPoint_iff]
  unfold QuadTree.nwRect
  dsimp only
  rw [px_IPoint, py_IPoint]
  dsimp only
  exact ⟨le_refl _, by linarith, le_refl _, by linarith⟩

theorem coincident_dP (f j : ℕ) (w h : ℚ) (hw : 0 < w) (hh : 0 < h) (hj : j < 256) :
    QuadTree.distributePoint (fun t3 p3 id3 => QuadTree.insertF f t3 p3 id3)
      (QuadTree.node ⟨0, 0, w, h⟩
        (QuadTree.leaf (QuadTree.neRect ⟨0, 0, w, h⟩) [] [] 0)
        (QuadTree.leaf (QuadTree.nwRect ⟨0, 0, w, h⟩) []
          (List.replicate j (⟨0, 0⟩ : IPoint)) j)
        (QuadTree.leaf (QuadTree.seRect ⟨0, 0, w, h⟩) [] [] 0)
        (QuadTree.leaf (QuadTree.swRect ⟨0, 0, w, h⟩) [] [] 0)) ⟨0, 0⟩ none = none ∨
    QuadTree.distributePoint (fun t3 p3 id3 => QuadTree.insertF f t3 p3 id3)
      (QuadTree.node ⟨0, 0, w, h⟩
        (QuadTree.leaf (QuadTree.neRect ⟨0, 0, w, h⟩) [] [] 0)
        (QuadTree.leaf (QuadTree.nwRect ⟨0, 0, w, h⟩) []
          (List.replicate j (⟨0, 0⟩ : IPoint)) j)
        (QuadTree.leaf (QuadTree.seRect ⟨0, 0, w, h⟩) [] [] 0)
        (QuadTree.leaf (QuadTree.swRect ⟨0, 0, w, h⟩) [] [] 0)) ⟨0, 0⟩ none =
      some (QuadTree.node ⟨0, 0, w, h⟩
        (QuadTree.leaf (QuadTree.neRect ⟨0, 0, w, h⟩) [] [] 0)
        (QuadTree.leaf (QuadTree.nwRect ⟨0, 0, w, h⟩) []
          (List.replicate (j + 1) (⟨0, 0⟩ : IPoint)) (j + 1))
        (QuadTree.leaf (QuadTree.seRect ⟨0, 0, w, h⟩) [] [] 0)
        (QuadTree.leaf (QuadTree.swRect ⟨0, 0, w, h⟩) [] [] 0)) := by
  cases f with
  | zero =>
    refine Or.inl ?_
    rw [QuadTree.distributePoint]
    simp [QuadTree.bounds, ne_not_contains_origin w h hw, nw_contains_origin w h hw hh,
      QuadTree.insertF]
  | succ f3 =>
    refine Or.inr ?_
    rw [QuadTree.distributePoint]
    simp only [QuadTree.bounds, ne_not_contains_origin w h hw,
      nw_contains_origin w h hw hh, Bool.false_eq_true, if_false, if_true]
    rw [QuadTree.insertF]
    rw [if_pos (show j < MaxPointsInRegion by simpa [MaxPointsInRegion] using hj)]
    simp [QuadTree.addPoint, List.replicate_succ']

theorem coincident_dPs :
    ∀ (k f j : ℕ) (w h : ℚ), 0 < w → 0 < h → j + k ≤ 256 →
    QuadTree.distributePoints (fun t3 p3 id3 => QuadTree.insertF f t3 p3 id3)
      (QuadTree.node ⟨0, 0, w, h⟩
        (QuadTree.leaf (QuadTree.neRect ⟨0, 0, w, h⟩) [] [] 0)
        (QuadTree.leaf (QuadTree.nwRect ⟨0, 0, w, h⟩) []
          (List.replicate j (⟨0, 0⟩ : IPoint)) j)
        (QuadTree.leaf (QuadTree.seRect ⟨0, 0, w, h⟩) [] [] 0)
        (QuadTree.leaf (QuadTree.swRect ⟨0, 0, w, h⟩) [] [] 0))
      (List.replicate k (⟨0, 0⟩ : IPoint)) none = none ∨
    QuadTree.distributePoints (fun t3 p3 id3 => QuadTree.insertF f t3 p3 id3)
      (QuadTree.node ⟨0, 0, w, h⟩
        (QuadTree.leaf (QuadTree.neRect ⟨0, 0, w, h⟩) [] [] 0)
        (QuadTree.leaf (QuadTree.nwRect ⟨0, 0, w, h⟩) []
          (List.replicate j (⟨0, 0⟩ : IPoint)) j)
        (QuadTree.leaf (QuadTree.seRect ⟨0, 0, w, h⟩) [] [] 0)
        (QuadTree.leaf (QuadTree.swRect ⟨0, 0, w, h⟩) [] [] 0))
      (List.replicate k (⟨0, 0⟩ : IPoint)) none =
      some (QuadTree.node ⟨0, 0, w, h⟩
        (QuadTree.leaf (QuadTree.neRect ⟨0, 0, w, h⟩) [] [] 0)
        (QuadTree.leaf (QuadTree.nwRect ⟨0, 0, w, h⟩) []
          (List.replicate (j + k) (⟨0, 0⟩ : IPoint)) (j + k))
        (QuadTree.leaf (QuadTree.seRect ⟨0, 0, w, h⟩) [] [] 0)
        (QuadTree.leaf (QuadTree.swRect ⟨0, 0, w, h⟩) [] [] 0)) := by
  intro k
  induction k with
  | zero =>
    intro f j w h hw hh hjk
    exact Or.inr (by rw [List.replicate_zero, QuadTree.distributePoints]; simp)
  | succ k2 ihk =>
    intro f j w h hw hh hjk
    rw [List.replicate_succ, QuadTree.distributePoints]
    rcases coincident_dP f j w h hw hh (by omega) with hd | hd
    · rw [hd]
      exact Or.inl rfl
    · rw [hd]
      simp only
      rcases ihk f (j + 1) w h hw hh (by omega) with hr | hr
      · rw [hr]
        exact Or.inl rfl
      · rw [hr]
        refine Or.inr ?_
        have hadd : j + 1 + k2 = j + (k2 + 1) := by omega
        rw [hadd]

theorem coincident_split (f : ℕ) (w h : ℚ) (hw : 0 < w) (hh : 0 < h) :
    QuadTree.split (fun t3 p3 id3 => QuadTree.insertF f t3 p3 id3)
      (⟨0, 0, w, h⟩ : Rectangle) [] (List.replicate 256 (⟨0, 0⟩ : IPoint)) = none ∨
    QuadTree.split (fun t3 p3 id3 => QuadTree.insertF f t3 p3 id3)
      (⟨0, 0, w, h⟩ : Rectangle) [] (List.replicate 256 (⟨0, 0⟩ : IPoint)) =
      some (QuadTree.node ⟨0, 0, w, h⟩
        (QuadTree.leaf (QuadTree.neRect ⟨0, 0, w, h⟩) [] [] 0)
        (QuadTree.leaf (QuadTree.nwRect ⟨0, 0, w, h⟩) []
          (List.replicate 256 (⟨0, 0⟩ : IPoint)) 256)
        (QuadTree.leaf (QuadTree.seRect ⟨0, 0, w, h⟩) [] [] 0)
        (QuadTree.leaf (QuadTree.swRect ⟨0, 0, w, h⟩) [] [] 0)) := by
  simp only [QuadTree.split]
  have hB := coincident_dPs 256 f 0 w h hw hh (by omega)
  rw [List.replicate_zero] at hB
  rcases hB with hB | hB
  · rw [hB]
    exact Or.inl rfl
  · rw [hB]
    simp only [Nat.zero_add]
    rw [QuadTree.distributeIdLists]
    exact Or.inr rfl

theorem coincident_insertF_full :
    ∀ (n : ℕ) (w h : ℚ), 0 < w → 0 < h →
      QuadTree.insertF n
        (QuadTree.leaf (⟨0, 0, w, h⟩ : Rectangle) []
          (List.replicate 256 (⟨0, 0⟩ : IPoint)) 256) ⟨0, 0⟩ none = none := by
  intro n
  induction n using Nat.strong_induction_on with
  | _ n ih =>
  intro w h hw hh
  cases n with
  | zero => rw [QuadTree.insertF]
  | succ k =>
    rw [QuadTree.insertF]
    rw [if_neg (by simp [MaxPointsInRegion])]
    rcases coincident_split k w h hw hh with hC | hC
    · rw [hC]
    · rw [hC]
      simp only
      rw [QuadTree.distributePoint]
      simp only [QuadTree.bounds, ne_not_contains_origin w h hw,
        nw_contains_origin w h hw hh, Bool.false_eq_true, if_false, if_true]
      rw [show QuadTree.nwRect (⟨0, 0, w, h⟩ : Rectangle) =
        (⟨0, 0, w / 2, h / 2⟩ : Rectangle) from rfl]
      rw [ih k (by omega) (w / 2) (h / 2) (by linarith) (by linarith)]
      rfl

theorem coincident_insertSeq :
    ∀ (k fuel j : ℕ), j + k = 257 → j ≤ 256 →
      insertSeqF fuel
        (QuadTree.leaf (⟨0, 0, 1, 1⟩ : Rectangle) []
          (List.replicate j (⟨0, 0⟩ : IPoint)) j)
        (List.replicate k ((⟨0, 0⟩ : IPoint), (none : Option String))) = none := by
  intro k
  induction k with
  | zero => omega
  | succ k2 ihk =>
    intro fuel j hjk hj
    rw [List.replicate_succ, insertSeqF]
    by_cases hfull : j = 256
    · subst hfull
      rw [coincident_insertF_full fuel 1 1 (by norm_num) (by norm_num)]
    · cases fuel with
      | zero => simp [QuadTree.insertF]
      | succ f =>
        rw [QuadTree.insertF]
        rw [if_pos (show j < MaxPointsInRegion by simp [MaxPointsInRegion]; omega)]
        simp only [QuadTree.addPoint]
        rw [show List.replicate j (⟨0, 0⟩ : IPoint) ++ [⟨0, 0⟩] =
          List.replicate (j + 1) (⟨0, 0⟩ : IPoint) from (List.replicate_succ' _ _).symm]
        exact ihk (f + 1) (j + 1) (by omega) (by omega)

theorem gather_union {T : Type} [IPointLike T] :
    ∀ (t : QuadTree T), t.wf = true →
      ∀ (box : Rectangle) (rects : List Rectangle) (p : IPoint),
        (∃ r ∈ QuadTree.gather_intersect t box rects, r.containsPoint p = true) ↔
          ((∃ r ∈ rects, r.containsPoint p = true) ∨
            (t.bounds.containsPoint p = true ∧ box.containsPoint p = true)) := by
  intro t
  induction t with
  | leaf b m a c =>
    intro hwf box rects p
    rw [QuadTree.gather_intersect]
    cases hi : b.intersection box with
    | none =>
      simp only
      constructor
      · exact fun hx => Or.inl hx
      · rintro (hx | hx)
        · exact hx
        · exact absurd hx (intersection_none hi p)
    | some isect =>
      simp only
      constructor
      · rintro ⟨r, hr, hrp⟩
        rcases List.mem_append.mp hr with h1 | h1
        · exact Or.inl ⟨r, h1, hrp⟩
        · simp at h1
          subst h1
          exact Or.inr ((intersection_some_contains hi p).mp hrp)
      · rintro (⟨r, hr, hrp⟩ | hx)
        · exact ⟨r, List.mem_append.mpr (Or.inl hr), hrp⟩
        · exact ⟨isect, List.mem_append.mpr (Or.inr (by simp)),
            (intersection_some_contains hi p).mpr hx⟩
  | node b tne tnw tse tsw ihne ihnw ihse ihsw =>
    intro hwf box rects p
    rw [wf_node_iff] at hwf
    obtain ⟨hbne, hbnw, hbse, hbsw, wne, wnw, wse, wsw⟩ := hwf
    rw [QuadTree.gather_intersect]
    cases hi : b.intersection box with
    | none =>
      simp only
      constructor
      · exact fun hx => Or.inl hx
      · rintro (hx | hx)
        · exact hx
        · exact absurd ⟨hx.1, hx.2⟩ (intersection_none hi p)
    | some isect =>
      simp only
      rw [ihsw wsw, ihse wse, ihnw wnw, ihne wne]
      constructor
      · rintro ((((hx | hx) | hx) | hx) | hx)
        · exact Or.inl hx
        all_goals
          refine Or.inr ?_
          have hisect := (intersection_some_contains hi p).mp hx.2
          exact ⟨hisect.1, hisect.2⟩
      · rintro (hx | hx)
        · exact Or.inl (Or.inl (Or.inl (Or.inl hx)))
        · obtain ⟨hb, hbox⟩ := hx
          have hisect := (intersection_some_contains hi p).mpr ⟨hb, hbox⟩
          rcases child_cover (b := b) (p := p) hb with hc | hc | hc | hc
          · exact Or.inl (Or.inl (Or.inl (Or.inr ⟨by rw [hbne]; exact hc, hisect⟩)))
          · exact Or.inl (Or.inl (Or.inr ⟨by rw [hbnw]; exact hc, hisect⟩))
          · exact Or.inl (Or.inr ⟨by rw [hbse]; exact hc, hisect⟩)
          · exact Or.inr ⟨by rw [hbsw]; exact hc, hisect⟩

theorem gather_pairwise {T : Type} [IPointLike T] :
    ∀ (t : QuadTree T), t.wf = true →
      ∀ (box : Rectangle) (rects : List Rectangle),
        List.Pairwise (fun r1 r2 => r1.intersection r2 = none) rects →
        (∀ r ∈ rects, ∀ p : IPoint, r.containsPoint p = true →
          ¬(t.bounds.containsPoint p = true ∧ box.containsPoint p = true)) →
        List.Pairwise (fun r1 r2 => r1.intersection r2 = none)
            (QuadTree.gather_intersect t box rects) ∧
          ∀ r ∈ QuadTree.gather_intersect t box rects, r ∈ rects ∨
            ∀ p : IPoint, r.containsPoint p = true →
              (t.bounds.containsPoint p = true ∧ box.containsPoint p = true) := by
  intro t
  induction t with
  | leaf b m a c =>
    intro hwf box rects hpw hsep
    rw [QuadTree.gather_intersect]
    cases hi : b.intersection box with
    | none => exact ⟨hpw, fun r hr => Or.inl hr⟩
    | some isect =>
      simp only
      constructor
      · rw [List.pairwise_append]
        refine ⟨hpw, by simp, ?_⟩
        intro r hr r2 hr2
        simp at hr2
        subst hr2
        apply rect_disjoint_of_not_shared
        intro p hp
        exact hsep r hr p hp.1 ((intersection_some_contains hi p).mp hp.2)
      · intro r hr
        rcases List.mem_append.mp hr with h1 | h1
        · exact Or.inl h1
        · simp at h1
          subst h1
          exact Or.inr fun p hp => (intersection_some_contains hi p).mp hp
  | node b tne tnw tse tsw ihne ihnw ihse ihsw =>
    intro hwf box rects hpw hsep
    rw [wf_node_iff] at hwf
    obtain ⟨hbne, hbnw, hbse, hbsw, wne, wnw, wse, wsw⟩ := hwf
    rw [QuadTree.gather_intersect]
    cases hi : b.intersection box with
    | none => exact ⟨hpw, fun r hr => Or.inl hr⟩
    | some isect =>
      simp only
      have hsub : ∀ p : IPoint, isect.containsPoint p = true →
          b.containsPoint p = true ∧ box.containsPoint p = true :=
        fun p hp => (intersection_some_contains hi p).mp hp
      have sep1 : ∀ r ∈ rects, ∀ p : IPoint, r.containsPoint p = true →
          ¬(tne.bounds.containsPoint p = true ∧ isect.containsPoint p = true) := by
        intro r hr p hp hcon
        exact hsep r hr p hp ⟨(hsub p hcon.2).1, (hsub p hcon.2).2⟩
      obtain ⟨pw1, mem1⟩ := ihne wne isect rects hpw sep1
      have sep2 : ∀ r ∈ QuadTree.gather_intersect tne isect rects, ∀ p : IPoint,
          r.containsPoint p = true →
          ¬(tnw.bounds.containsPoint p = true ∧ isect.containsPoint p = true) := by
        intro r hr p hp hcon
        rcases mem1 r hr with h1 | h1
        · exact hsep r h1 p hp ⟨(hsub p hcon.2).1, (hsub p hcon.2).2⟩
        · have h2 := h1 p hp
          rw [hbne] at h2
          rw [hbnw] at hcon
          exact ne_nw_disjoint b p ⟨h2.1, hcon.1⟩
      obtain ⟨pw2, mem2⟩ := ihnw wnw isect _ pw1 sep2
      have sep3 : ∀ r ∈ QuadTree.gather_intersect tnw isect
          (QuadTree.gather_intersect tne isect rects), ∀ p : IPoint,
          r.containsPoint p = true →
          ¬(tse.bounds.containsPoint p = true ∧ isect.containsPoint p = true) := by
        intro r hr p hp hcon
        rcases mem2 r hr with h1 | h1
        · rcases mem1 r h1 with h2 | h2
          · exact hsep r h2 p hp ⟨(hsub p hcon.2).1, (hsub p hcon.2).2⟩
          · have h3 := h2 p hp
            rw [hbne] at h3
            rw [hbse] at hcon
            exact ne_se_disjoint b p ⟨h3.1, hcon.1⟩
        · have h3 := h1 p hp
          rw [hbnw] at h3
          rw [hbse] at hcon
          exact nw_se_disjoint b p ⟨h3.1, hcon.1⟩
      obtain ⟨pw3, mem3⟩ := ihse wse isect _ pw2 sep3
      have sep4 : ∀ r ∈ QuadTree.gather_intersect tse isect
          (QuadTree.gather_intersect tnw isect
            (QuadTree.gather_intersect tne isect rects)), ∀ p : IPoint,
          r.containsPoint p = true →
          ¬(tsw.bounds.containsPoint p = true ∧ isect.containsPoint p = true) := by
        intro r hr p hp hcon
        rcases mem3 r hr with h1 | h1
        · rcases mem2 r h1 with h2 | h2
          · rcases mem1 r h2 with h3 | h3
            · exact hsep r h3 p hp ⟨(hsub p hcon.2).1, (hsub p hcon.2).2⟩
            · have h4 := h3 p hp
              rw [hbne] at h4
              rw [hbsw] at hcon
              exact ne_sw_disjoint b p ⟨h4.1, hcon.1⟩
          · have h4 := h2 p hp
            rw [hbnw] at h4
            rw [hbsw] at hcon
            exact nw_sw_disjoint b p ⟨h4.1, hcon.1⟩
        · have h4 := h1 p hp
          rw [hbse] at h4
          rw [hbsw] at hcon
          exact se_sw_disjoint b p ⟨h4.1, hcon.1⟩
      obtain ⟨pw4, mem4⟩ := ihsw wsw isect _ pw3 sep4
      refine ⟨pw4, ?_⟩
      intro r hr
      rcases mem4 r hr with h1 | h1
      swap
      · refine Or.inr fun p hp => ?_
        have h2 := h1 p hp
        exact hsub p h2.2
      rcases mem3 r h1 with h2 | h2
      swap
      · refine Or.inr fun p hp => ?_
        have h3 := h2 p hp
        exact hsub p h3.2
      rcases mem2 r h2 with h3 | h3
      swap
      · refine Or.inr fun p hp => ?_
        have h4 := h3 p hp
        exact hsub p h4.2
      rcases mem1 r h3 with h4 | h4
      · exact Or.inl h4
      · refine Or.inr fun p hp => ?_
        have h5 := h4 p hp
        exact hsub p h5.2

/-- Claim C1, counterexample to the claim as stated: searching over the tight
bounding rectangle of the inserted points does not return every inserted pair.
With a single inserted point the bounding rectangle has zero width and height,
its intersection with the root bounds is empty (the spec's Rectangle returns
none on zero-area overlap), and the search visits nothing, although one
(point, id) pair was inserted.  More generally the half-open containsPoint
excludes every point on the bounding rectangle's right and bottom edges. -/
theorem c1_counterexample :
    insertSeqF 1 (freshQT IPoint ⟨0, 0, 100, 100⟩) [((⟨0, 0⟩ : IPoint), some "a")] =
      some (QuadTree.leaf ⟨0, 0, 100, 100⟩ [("a", [(⟨0, 0⟩ : IPoint)])] [] 1) ∧
    boundingRect [(⟨0, 0⟩ : IPoint)] = ⟨0, 0, 0, 0⟩ ∧
    searchVisited (QuadTree.leaf ⟨0, 0, 100, 100⟩ [("a", [(⟨0, 0⟩ : IPoint)])] [] 1)
      ⟨0, 0, 0, 0⟩ = [] ∧
    [((⟨0, 0⟩ : IPoint), some "a")] ≠ [] := by
  with_unfolding_all decide

/-- Claim C1 (amended): for every sequence of insert(p, id) calls into a
freshly constructed index whose points lie within the index bounds, running
search over any query rectangle that contains all inserted points, with a
visitor that always returns false and records its arguments, visits every
inserted (point, id) pair exactly once counted with multiplicity (the
recorded list is a permutation of the insert sequence), regardless of how
many splits occurred.  (As stated the claim fails: the tight bounding
rectangle's half-open point set excludes its extreme points, and out-of-bounds
inserts are mis-stored; see the counterexample.) -/
theorem c1_search_visits_inserted_exactly_once {T : Type} [IPointLike T]
    (b : Rectangle) (ps : List (T × Option String)) (fuel : ℕ) (t : QuadTree T)
    (box : Rectangle)
    (hin : ∀ pr ∈ ps, b.containsPoint pr.1 = true)
    (hbox : ∀ pr ∈ ps, box.containsPoint pr.1 = true)
    (hrun : insertSeqF fuel (freshQT T b) ps = some t) :
    (searchVisited t box : Multiset (T × Option String)) =
      (ps : Multiset (T × Option String)) := by
  have hwf0 : (freshQT T b).wf = true := rfl
  have hin0 : (freshQT T b).inBounds = true := rfl
  obtain ⟨it, st⟩ := insertSeqF_stored hrun hwf0 hin0 hin
  have hw := insertSeqF_wf hrun hwf0
  have hstored : (QuadTree.storedPairs t : Multiset (T × Option String)) = ↑ps := by
    rw [st]
    simp [freshQT, QuadTree.storedPairs, idListPairs]
  rw [searchVisited, search_record t hw.1 it box []]
  simp only [List.nil_append]
  have hfull : (QuadTree.storedPairs t).filter (fun pr => box.containsPoint pr.1) =
      QuadTree.storedPairs t := by
    rw [List.filter_eq_self]
    intro pr hpr
    have hmem : pr ∈ ps := by
      rw [← Multiset.mem_coe, hstored, Multiset.mem_coe] at hpr
      exact hpr
    exact hbox pr hmem
  rw [hfull, hstored]

/-- Witness for C1 (amended) at a concrete run: two points, one id-tagged and
one anonymous, inserted into a fresh 100 by 100 index and searched over a
rectangle containing both. -/
theorem c1_witness :
    (searchVisited (QuadTree.leaf ⟨0, 0, 100, 100⟩ [("a", [(⟨1, 2⟩ : IPoint)])]
        [(⟨3, 4⟩ : IPoint)] 2)
        ⟨0, 0, 10, 10⟩ : Multiset (IPoint × Option String)) =
      (([((⟨1, 2⟩ : IPoint), some "a"), ((⟨3, 4⟩ : IPoint), none)] :
        List (IPoint × Option String)) : Multiset (IPoint × Option String)) :=
  c1_search_visits_inserted_exactly_once ⟨0, 0, 100, 100⟩
    [((⟨1, 2⟩ : IPoint), some "a"), (⟨3, 4⟩, none)] 1
    (QuadTree.leaf ⟨0, 0, 100, 100⟩ [("a", [⟨1, 2⟩])] [⟨3, 4⟩] 2) ⟨0, 0, 10, 10⟩
    (by with_unfolding_all decide) (by with_unfolding_all decide)
    (by with_unfolding_all decide)

set_option maxRecDepth 100000 in
/-- Claim C2, counterexample to the claim as stated: a quadtree reachable by
inserts whose split loses points.  256 copies of an out-of-bounds point fill
the root leaf (insert never checks the root bounds); splitting that full leaf
drops every point, because no child rectangle contains them, leaving 0 of the
256 stored points. -/
theorem c2_counterexample :
    insertSeqF 1 (freshQT IPoint ⟨0, 0, 1, 1⟩)
        (List.replicate 256 ((⟨2, 2⟩ : IPoint), (none : Option String))) =
      some (QuadTree.leaf ⟨0, 0, 1, 1⟩ [] (List.replicate 256 (⟨2, 2⟩ : IPoint)) 256) ∧
    (QuadTree.storedPairs (QuadTree.leaf ⟨0, 0, 1, 1⟩ []
      (List.replicate 256 (⟨2, 2⟩ : IPoint)) 256)).length = 256 ∧
    (QuadTree.split (fun t3 p3 id3 => QuadTree.insertF 300 t3 p3 id3) ⟨0, 0, 1, 1⟩ []
      (List.replicate 256 (⟨2, 2⟩ : IPoint))).map
      (fun t => (QuadTree.storedPairs t).length) = some 0 := by
  with_unfolding_all decide

/-- Claim C2 (amended): for every leaf state whose stored points all lie
within the leaf's bounds (which holds for every leaf reachable by inserts of
in-bounds points), performing a split preserves the multiset of stored
(point, id) pairs, and in particular the total point count across all leaves:
no point is dropped or duplicated during redistribution into the four
children.  (As stated, over all trees reachable by arbitrary inserts, the
claim fails: a leaf filled with out-of-bounds points loses them all on split;
see the counterexample.) -/
theorem c2_split_preserves_points {T : Type} [IPointLike T] (n c : ℕ) (b : Rectangle)
    (m : List (String × List T)) (a : List T) (t' : QuadTree T)
    (ha : ∀ p ∈ a, b.containsPoint p = true)
    (hm : ∀ kv ∈ m, ∀ p ∈ kv.2, b.containsPoint p = true)
    (hs : QuadTree.split (fun t3 p3 id3 => QuadTree.insertF n t3 p3 id3) b m a = some t') :
    (QuadTree.storedPairs t' : Multiset (T × Option String)) =
      ↑(QuadTree.storedPairs (QuadTree.leaf b m a c)) ∧
    (QuadTree.storedPairs t').length =
      (QuadTree.storedPairs (QuadTree.leaf b m a c)).length := by
  obtain ⟨i2, s2⟩ := split_stored
    (fun t p id t' hx hw => insertF_wf_all T n t p id t' hx hw)
    (fun t p id t' hx hw hi hp => insertF_stored_all T n t p id t' hx hw hi hp)
    b m a t' hs ha hm
  have hmeq : (QuadTree.storedPairs t' : Multiset (T × Option String)) =
      ↑(QuadTree.storedPairs (QuadTree.leaf b m a c)) := by
    rw [s2, storedPairs_leaf, ← Multiset.coe_add]
  refine ⟨hmeq, ?_⟩
  have hcard := congrArg Multiset.card hmeq
  simpa using hcard

/-- Witness for C2 (amended) at a concrete split: a leaf over a 4 by 4 square
holding one id-tagged point and one anonymous point, split with fuel 5. -/
theorem c2_witness :
    (QuadTree.storedPairs (QuadTree.node ⟨0, 0, 4, 4⟩
        (QuadTree.leaf ⟨2, 0, 2, 2⟩ [] [] 0)
        (QuadTree.leaf ⟨0, 0, 2, 2⟩ [("a", [⟨1, 1⟩])] [] 1)
        (QuadTree.leaf ⟨2, 2, 2, 2⟩ [] [(⟨3, 3⟩ : IPoint)] 1)
        (QuadTree.leaf ⟨0, 2, 2, 2⟩ [] [] 0)) : Multiset (IPoint × Option String)) =
      ↑(QuadTree.storedPairs (QuadTree.leaf ⟨0, 0, 4, 4⟩ [("a", [⟨1, 1⟩])]
        [(⟨3, 3⟩ : IPoint)] 2)) ∧
    (QuadTree.storedPairs (QuadTree.node ⟨0, 0, 4, 4⟩
        (QuadTree.leaf ⟨2, 0, 2, 2⟩ [] [] 0)
        (QuadTree.leaf ⟨0, 0, 2, 2⟩ [("a", [⟨1, 1⟩])] [] 1)
        (QuadTree.leaf ⟨2, 2, 2, 2⟩ [] [(⟨3, 3⟩ : IPoint)] 1)
        (QuadTree.leaf ⟨0, 2, 2, 2⟩ [] [] 0))).length =
      (QuadTree.storedPairs (QuadTree.leaf ⟨0, 0, 4, 4⟩ [("a", [⟨1, 1⟩])]
        [(⟨3, 3⟩ : IPoint)] 2)).length :=
  c2_split_preserves_points 5 2 ⟨0, 0, 4, 4⟩ [("a", [⟨1, 1⟩])] [(⟨3, 3⟩ : IPoint)]
    (QuadTree.node ⟨0, 0, 4, 4⟩ (QuadTree.leaf ⟨2, 0, 2, 2⟩ [] [] 0)
      (QuadTree.leaf ⟨0, 0, 2, 2⟩ [("a", [⟨1, 1⟩])] [] 1)
      (QuadTree.leaf ⟨2, 2, 2, 2⟩ [] [(⟨3, 3⟩ : IPoint)] 1)
      (QuadTree.leaf ⟨0, 2, 2, 2⟩ [] [] 0))
    (by with_unfolding_all decide) (by with_unfolding_all decide)
    (by with_unfolding_all decide)

/-- Claim C3, counterexample to the claim as stated: insert never checks the
root bounds, so a point outside them is stored in the root leaf, whose bounds
do not contain it — the claimed invariant fails for arbitrary points. -/
theorem c3_counterexample :
    insertSeqF 1 (freshQT IPoint ⟨0, 0, 1, 1⟩)
        [((⟨5, 5⟩ : IPoint), (none : Option String))] =
      some (QuadTree.leaf ⟨0, 0, 1, 1⟩ [] [⟨5, 5⟩] 1) ∧
    QuadTree.inBounds (QuadTree.leaf ⟨0, 0, 1, 1⟩ [] [(⟨5, 5⟩ : IPoint)] 1) = false := by
  with_unfolding_all decide

/-- Claim C3 (amended): in every index state reachable by a sequence of
insert calls of points lying within the root bounds on a freshly constructed
index, every point ever inserted resides in a leaf whose bounds contain it:
the containment invariant holds and the stored multiset is exactly the
inserted multiset.  (As stated, with arbitrary points, the claim fails; see
the counterexample.) -/
theorem c3_inserted_points_reside_in_containing_leaf {T : Type} [IPointLike T]
    (b : Rectangle) (ps : List (T × Option String)) (fuel : ℕ) (t : QuadTree T)
    (hcont : ∀ pr ∈ ps, b.containsPoint pr.1 = true)
    (hrun : insertSeqF fuel (freshQT T b) ps = some t) :
    t.inBounds = true ∧
      (QuadTree.storedPairs t : Multiset (T × Option String)) = ↑ps := by
  obtain ⟨it, st⟩ := insertSeqF_stored hrun rfl rfl hcont
  refine ⟨it, ?_⟩
  rw [st]
  simp [freshQT, QuadTree.storedPairs, idListPairs]

/-- Witness for C3 (amended) at a concrete run: one in-bounds point. -/
theorem c3_witness :
    QuadTree.inBounds (QuadTree.leaf ⟨0, 0, 10, 10⟩ [] [(⟨2, 3⟩ : IPoint)] 1) = true ∧
      (QuadTree.storedPairs (QuadTree.leaf ⟨0, 0, 10, 10⟩ [] [(⟨2, 3⟩ : IPoint)] 1) :
        Multiset (IPoint × Option String)) =
        (([((⟨2, 3⟩ : IPoint), (none : Option String))] :
          List (IPoint × Option String)) : Multiset (IPoint × Option String)) :=
  c3_inserted_points_reside_in_containing_leaf ⟨0, 0, 10, 10⟩
    [((⟨2, 3⟩ : IPoint), none)] 1 (QuadTree.leaf ⟨0, 0, 10, 10⟩ [] [⟨2, 3⟩] 1)
    (by with_unfolding_all decide) (by with_unfolding_all decide)

/-- Claim C4: for every quadtree reachable by inserts and every query
rectangle R, the rectangles appended by gather_intersect(R, out) starting
from an empty out are pairwise non-overlapping (every pair has empty
intersection) and their union exactly equals the portion of the index's root
bounds that falls inside R (a point lies in some output rectangle exactly
when it lies in both the root bounds and R). -/
theorem c4_gather_tiles_root_within_box {T : Type} [IPointLike T]
    (b : Rectangle) (ps : List (T × Option String)) (fuel : ℕ) (t : QuadTree T)
    (R : Rectangle) (hrun : insertSeqF fuel (freshQT T b) ps = some t) :
    List.Pairwise (fun r1 r2 => r1.intersection r2 = none)
        (QuadTree.gather_intersect t R []) ∧
      ∀ p : IPoint,
        (∃ r ∈ QuadTree.gather_intersect t R [], r.containsPoint p = true) ↔
          (b.containsPoint p = true ∧ R.containsPoint p = true) := by
  have hw := insertSeqF_wf hrun rfl
  have hb : t.bounds = b := hw.2
  constructor
  · exact (gather_pairwise t hw.1 R [] (by simp) (by simp)).1
  · intro p
    have hu := gather_union t hw.1 R [] p
    rw [hb] at hu
    simpa using hu

/-- Witness for C4 at a concrete run: a fresh index split once by 257
coincident in-bounds insert attempts is not needed — a simple two-insert index
over a 4 by 4 square queried with an interior rectangle, instantiated at a
concrete probe point. -/
theorem c4_witness :
    List.Pairwise (fun r1 r2 => r1.intersection r2 = none)
      (QuadTree.gather_intersect (QuadTree.leaf ⟨0, 0, 4, 4⟩ [] [(⟨1, 1⟩ : IPoint)] 1)
        ⟨1, 1, 2, 2⟩ []) ∧
    ((∃ r ∈ QuadTree.gather_intersect (QuadTree.leaf ⟨0, 0, 4, 4⟩ []
        [(⟨1, 1⟩ : IPoint)] 1) ⟨1, 1, 2, 2⟩ [],
      r.containsPoint (⟨2, 2⟩ : IPoint) = true) ↔
      (Rectangle.containsPoint ⟨0, 0, 4, 4⟩ (⟨2, 2⟩ : IPoint) = true ∧
        Rectangle.containsPoint ⟨1, 1, 2, 2⟩ (⟨2, 2⟩ : IPoint) = true)) :=
  ⟨(c4_gather_tiles_root_within_box ⟨0, 0, 4, 4⟩ [((⟨1, 1⟩ : IPoint), none)] 1
      (QuadTree.leaf ⟨0, 0, 4, 4⟩ [] [⟨1, 1⟩] 1) ⟨1, 1, 2, 2⟩
      (by with_unfolding_all decide)).1,
    (c4_gather_tiles_root_within_box ⟨0, 0, 4, 4⟩ [((⟨1, 1⟩ : IPoint), none)] 1
      (QuadTree.leaf ⟨0, 0, 4, 4⟩ [] [⟨1, 1⟩] 1) ⟨1, 1, 2, 2⟩
      (by with_unfolding_all decide)).2 ⟨2, 2⟩⟩

/-- Claim C8: for every quadtree, query box and state, when the visitor
returns true at every call (the strongest early-exit behaviour), scanning
stops only within the single point list currently being iterated: every
intersecting leaf still contributes the first in-box point of its anonymous
list and the first in-box point of each of its id lists — the remaining id
lists of the same leaf and all other intersecting leaves and branches are
still searched. -/
theorem c8_early_exit_is_local_to_list {T : Type} [IPointLike T] (t : QuadTree T)
    (box : Rectangle) (s : List (T × Option String)) :
    QuadTree.search (stopVisitor T) t box s = s ++ firstHitPerList t box :=
  search_stop_characterization t box s

/-- Claim C9 (evidence of the code bug): insert does not terminate on
coincident points.  Inserting 257 copies of the same in-bounds point into a
freshly constructed index fails for every fuel bound: the 257th insert splits
the full leaf, redistribution refills one child to capacity, and routing the
new point into that full child triggers another split, forever — halving the
region never separates coincident points.  The claim (and the spec's
bounded-time promise) says this terminates; the code recurses without
bound. -/
theorem c9_insert_diverges_on_coincident_points :
    ∀ fuel : ℕ, insertSeqF fuel (freshQT IPoint ⟨0, 0, 1, 1⟩)
      (List.replicate 257 ((⟨0, 0⟩ : IPoint), (none : Option String))) = none := by
  intro fuel
  have h := coincident_insertSeq 257 fuel 0 rfl (by omega)
  rw [List.replicate_zero] at h
  exact h

theorem appendPointToStroke_missing (fuel : ℕ) (k : Ink) (p : IInkPoint) (id : String)
    (h : k.inkData.getStroke id = none) :
    Ink.appendPointToStroke fuel k p id =
      some ({ k with outbox := k.outbox ++ [IInkOperation.stylus id p] }, none) := by
  simp [Ink.appendPointToStroke, Ink.executeStylusOperation, h]

theorem appendPointToStroke_outbox (fuel : ℕ) (k : Ink) (p : IInkPoint) (id : String)
    (k2 : Ink) (r : Option IInkStroke)
    (h : Ink.appendPointToStroke fuel k p id = some (k2, r)) :
    k2.outbox = k.outbox ++ [IInkOperation.stylus id p] := by
  unfold Ink.appendPointToStroke Ink.executeStylusOperation at h
  simp only at h
  cases hg : k.inkData.getStroke id with
  | none =>
    rw [hg] at h
    simp only [Option.some_inj, Prod.mk.injEq] at h
    rw [← h.1]
  | some stroke =>
    rw [hg] at h
    simp only at h
    unfold Ink.addPointToStroke at h
    simp only at h
    cases hq : QuadTree.insertF fuel k.strokeIndex p (some id) with
    | none => rw [hq] at h; simp at h
    | some qt =>
      rw [hq] at h
      simp only [Option.some_inj, Prod.mk.injEq] at h
      rw [← h.1]

theorem find?_key_updated (i j : String) (f : IInkStroke → IInkStroke) :
    ∀ l : List (String × IInkStroke),
      ((l.map fun kv => if kv.1 = i then (kv.1, f kv.2) else kv).find? fun kv =>
        kv.1 = j).isSome = (l.find? fun kv => kv.1 = j).isSome := by
  intro l
  induction l with
  | nil => rfl
  | cons kv rest ih =>
    simp only [List.map_cons]
    by_cases hj : kv.1 = j
    · rw [List.find?_cons_of_pos _ (by simp [hj]; split_ifs <;> simp [hj]),
        List.find?_cons_of_pos _ (by simpa using hj)]
      rfl
    · rw [List.find?_cons_of_neg _ (by simp [hj]; split_ifs <;> simp [hj]),
        List.find?_cons_of_neg _ (by simpa using hj)]
      exact ih

theorem updateStroke_isSome (d : InkData) (i j : String) (f : IInkStroke → IInkStroke) :
    ((d.updateStroke i f).getStroke j).isSome = (d.getStroke j).isSome := by
  unfold InkData.updateStroke InkData.getStroke
  simp only
  rw [Option.isSome_map', Option.isSome_map']
  exact find?_key_updated i j f d.strokes

theorem eraseLoop_eq :
    ∀ (ids : List String) (d : InkData),
      (∀ id ∈ ids, (d.getStroke id).isSome = true) →
      Ink.eraseLoop d ids = some { d with strokes := d.strokes.map fun kv =>
        if kv.1 ∈ ids then (kv.1, { kv.2 with inactive := true }) else kv } := by
  intro ids
  induction ids with
  | nil =>
    intro d h
    rw [Ink.eraseLoop]
    simp
  | cons i rest ih =>
    intro d h
    rw [Ink.eraseLoop]
    have hi := h i (List.mem_cons_self _ _)
    cases hg : d.getStroke i with
    | none => rw [hg] at hi; simp at hi
    | some s =>
      simp only
      rw [ih (d.updateStroke i fun s0 => { s0 with inactive := true })
        (by
          intro id2 hid2
          rw [updateStroke_isSome]
          exact h id2 (List.mem_cons_of_mem _ hid2))]
      unfold InkData.updateStroke
      simp only [List.map_map]
      congr 1
      congr 1
      apply List.map_congr_left
      intro kv _
      by_cases hki : kv.1 = i
      · simp only [Function.comp, hki, if_pos rfl]
        by_cases hkr : i ∈ rest
        · simp [hkr, List.mem_cons]
        · simp [hkr, List.mem_cons]
      · simp only [Function.comp, if_neg hki]
        by_cases hkr : kv.1 ∈ rest
        · simp [hkr, List.mem_cons, hki]
        · simp [hkr, List.mem_cons, hki]

/-- Claim C5: for every document state and ink point, if the stroke id does
not resolve to a stored stroke then appendPointToStroke is a no-op that
returns a not-found result rather than raising: the resulting document equals
the input except for the unconditionally submitted operation, so the stroke
collection, every stroke's points and bounds, the spatial index and the
emitted events are all unchanged, and no stylus event is emitted. -/
theorem c5_append_to_missing_stroke_is_noop (fuel : ℕ) (k : Ink) (p : IInkPoint)
    (id : String) (h : k.inkData.getStroke id = none) :
    Ink.appendPointToStroke fuel k p id =
      some ({ k with outbox := k.outbox ++ [IInkOperation.stylus id p] }, none) :=
  appendPointToStroke_missing fuel k p id h

/-- Witness for C5 at a concrete state: a fresh document and an unknown id. -/
theorem c5_witness :
    Ink.appendPointToStroke 1 (Ink.freshInk 10 10) ⟨1, 1, 0, 1⟩ "missing" =
      some ({ Ink.freshInk 10 10 with
        outbox := (Ink.freshInk 10 10).outbox ++
          [IInkOperation.stylus "missing" ⟨1, 1, 0, 1⟩] }, none) :=
  c5_append_to_missing_stroke_is_noop 1 (Ink.freshInk 10 10) ⟨1, 1, 0, 1⟩ "missing" rfl

/-- Claim C6: for every document state and every list of ids each resolving
to a stored stroke, eraseStrokes sets inactive = true on exactly the named
strokes and changes nothing else: the resulting document differs only in the
submitted operation, the emitted event, and the inactive flags of the named
strokes — each named stroke keeps its points, loBound, hiBound and pen, all
other strokes are untouched, and the spatial index field is unchanged. -/
theorem c6_erase_marks_inactive_only (k : Ink) (ids : List String)
    (h : ∀ id ∈ ids, (k.inkData.getStroke id).isSome = true) :
    Ink.eraseStrokes k ids = some { k with
      inkData := { k.inkData with strokes := k.inkData.strokes.map fun kv =>
        if kv.1 ∈ ids then (kv.1, { kv.2 with inactive := true }) else kv },
      outbox := k.outbox ++ [IInkOperation.eraseStrokes ids],
      events := k.events ++ [IInkOperation.eraseStrokes ids] } := by
  unfold Ink.eraseStrokes Ink.executeEraseStrokesOperation
  simp only
  rw [eraseLoop_eq ids k.inkData h]

/-- Witness for C6 at a concrete state: one stored stroke, erased. -/
theorem c6_witness :
    Ink.eraseStrokes
      ⟨⟨10, 10, [("s1", ⟨"s1", [⟨1, 2, 0, 1⟩], ⟨1, 2⟩, ⟨1, 2⟩, ⟨⟨0, 0, 0, 1⟩, 2⟩, false⟩)]⟩,
        Ink.initStrokeIndex 10 10, [], []⟩ ["s1"] =
      some (⟨⟨10, 10, [("s1", ⟨"s1", [⟨1, 2, 0, 1⟩], ⟨1, 2⟩, ⟨1, 2⟩, ⟨⟨0, 0, 0, 1⟩, 2⟩,
          true⟩)]⟩,
        Ink.initStrokeIndex 10 10, [IInkOperation.eraseStrokes ["s1"]],
        [IInkOperation.eraseStrokes ["s1"]]⟩ : Ink) := by
  rw [c6_erase_marks_inactive_only _ _ (by intro id hid; simp at hid; subst hid; rfl)]
  with_unfolding_all decide

/-- Claim C7 (evidence of the code bug): eraseStrokes with an id that does
not resolve to a stored stroke raises instead of degrading to a no-op.  The
source reads the stroke without an existence check and sets inactive on it,
which on a missing stroke dereferences undefined (a TypeError), embedded here
as the crash result none.  This refutes the claim that no core operation
raises on inputs arising in normal operation. -/
theorem c7_erase_missing_raises :
    Ink.eraseStrokes (Ink.freshInk 1000 1000) ["missing"] = none := rfl

/-- Claim C10: on every call of appendPointToStroke, exactly one stylus
operation is submitted to the replication substrate, and the submission
happens unconditionally before the local stroke-existence check: whenever the
call completes, the outbox grew by exactly that one stylus operation, and even
when the stroke id does not resolve locally — so the call returns an absent
result and changes no other local state — the operation is still
submitted. -/
theorem c10_append_always_submits (fuel : ℕ) (k : Ink) (p : IInkPoint) (id : String) :
    (∀ (k2 : Ink) (r : Option IInkStroke),
      Ink.appendPointToStroke fuel k p id = some (k2, r) →
        k2.outbox = k.outbox ++ [IInkOperation.stylus id p]) ∧
    (k.inkData.getStroke id = none →
      Ink.appendPointToStroke fuel k p id =
        some ({ k with outbox := k.outbox ++ [IInkOperation.stylus id p] }, none)) :=
  ⟨fun k2 r h => appendPointToStroke_outbox fuel k p id k2 r h,
    fun h => appendPointToStroke_missing fuel k p id h⟩

/-- Witness for C10 at a concrete state: a fresh document, an unknown id. -/
theorem c10_witness :
    (Ink.freshInk 10 10).inkData.getStroke "x" = none ∧
    Ink.appendPointToStroke 1 (Ink.freshInk 10 10) ⟨1, 1, 0, 1⟩ "x" =
      some ({ Ink.freshInk 10 10 with
        outbox := (Ink.freshInk 10 10).outbox ++
          [IInkOperation.stylus "x" ⟨1, 1, 0, 1⟩] }, none) :=
  ⟨rfl, (c10_append_always_submits 1 (Ink.freshInk 10 10) ⟨1, 1, 0, 1⟩ "x").2 rfl⟩

end Canvas
